import Mathlib

/-!
Shallow embedding of the JSON library in src/src/json (tokenizer.rs, parser.rs,
string.rs, json_value.rs, token.rs, parser_error.rs) of the rust-json repository.

Modelling conventions:
* Rust str / String values are modelled as List Char (a Rust char and a Lean
  Char are both exactly a Unicode scalar value); the byte buffer the tokenizer
  scans is modelled as List Nat, one Nat per byte.
* The tokenizer keeps a cursor index into a fixed buffer; here the cursor is
  represented by the remaining suffix of the byte list.  The one place where
  the numeric index is observable -- the string scan can move the index
  strictly past the end of the buffer before failing, after which the regex
  search of consume_number panics (regex captures_at documents a panic
  whenever start exceeds the haystack length) -- is modelled explicitly by
  the overshoot count returned by string_body.
* Every Rust panic (integer overflow in str::parse::<i64>().unwrap(), the
  String::from_utf8 unwrap, and the captures_at overshoot panic) is modelled
  as a distinguished constructor / a none result.
* f64 values are not statable; a Float number token carries the matched
  lexeme bytes instead of a floating-point value.
* Loops are modelled by structural recursion; the two top-level drains
  (the token iterator and the recursive descent) take an explicit fuel
  argument large enough for the measured input, justified by the lemmas
  tokenize_fuel_sufficient and parser_fuel_sufficient below.
-/

/-! ## String codec (src/src/json/string.rs) -/

/-- Hexadecimal digit recognizer, as accepted by u32::from_str_radix with
radix 16 (char::is_digit(16)). -/
def is_hex_digit (c : Char) : Bool :=
  (('0' ≤ c && c ≤ '9') || ('a' ≤ c && c ≤ 'f') || ('A' ≤ c && c ≤ 'F'))

/-- Numeric value of one hexadecimal digit. -/
def hex_digit_val (c : Char) : Nat :=
  if c ≤ '9' then c.toNat - 48
  else if c ≤ 'F' then c.toNat - 55
  else c.toNat - 87

/-- Value of a run of hexadecimal digits, most significant first. -/
def hex_value (l : List Char) : Nat :=
  l.foldl (fun acc c => 16 * acc + hex_digit_val c) 0

/-- Model of u32::from_str_radix(s, 16): the string must be an optional
leading plus sign followed by one or more hexadecimal digits (this is the
documented contract of from_str_radix for an unsigned integer type; a minus
sign, whitespace or any other character is an error).  Overflow of u32 cannot
occur at the call site in unescape, which passes exactly four characters. -/
def from_str_radix_16 : List Char → Option Nat
  | [] => none
  | '+' :: rest =>
    if rest ≠ [] ∧ rest.all is_hex_digit then some (hex_value rest) else none
  | l =>
    if l.all is_hex_digit then some (hex_value l) else none

/-- Model of char::from_u32: some for every Unicode scalar value, none for
surrogate code points and values above 0x10FFFF. -/
def from_u32 (n : Nat) : Option Char :=
  if n < 0xD800 ∨ (0xE000 ≤ n ∧ n < 0x110000) then some (Char.ofNat n) else none

mutual

/-- unescape from string.rs: scans left to right; a backslash hands control
to the escape handler (unescape_escaped), every other character is copied.
The three mutually recursive functions are the three positions of the
single Rust loop: top level, just after a backslash, and inside a \u
escape. -/
def unescape : List Char → List Char
  | [] => []
  | c :: rest => if c = '\\' then unescape_escaped rest else c :: unescape rest

/-- The match on the character following a backslash in unescape: a named
single-character escape, the \u handler, an unrecognized escape character
copied through, or -- when the backslash was the last character -- a
literal backslash. -/
def unescape_escaped : List Char → List Char
  | [] => ['\\']
  | e :: rest2 =>
    if e = '"' then '"' :: unescape rest2
    else if e = '/' then '/' :: unescape rest2
    else if e = '\\' then '\\' :: unescape rest2
    else if e = 'b' then '\x08' :: unescape rest2
    else if e = 'f' then '\x0c' :: unescape rest2
    else if e = 'n' then '\n' :: unescape rest2
    else if e = 'r' then '\r' :: unescape rest2
    else if e = 't' then '\t' :: unescape rest2
    else if e = 'u' then unescape_u rest2
    else e :: unescape rest2

/-- The \u arm of unescape: exactly four characters are collected and handed
to from_str_radix/from_u32, with the placeholder on either failure; when the
input ends inside the four characters, the Rust code pushes the placeholder
and returns at once, discarding the characters already collected and
emitting nothing after them. -/
def unescape_u : List Char → List Char
  | h1 :: h2 :: h3 :: h4 :: rest3 =>
    (match from_str_radix_16 [h1, h2, h3, h4] with
     | some n =>
       match from_u32 n with
       | some ch => ch :: unescape rest3
       | none => '?' :: unescape rest3
     | none => '?' :: unescape rest3)
  | _ => ['?']

end

/-- Translation of one step of the match in escape from string.rs. -/
def escape_char (c : Char) : List Char :=
  if c = '"' then ['\\', '"']
  else if c = '\\' then ['\\', '\\']
  else if c = '\x08' then ['\\', 'b']
  else if c = '\x0c' then ['\\', 'f']
  else if c = '\n' then ['\\', 'n']
  else if c = '\r' then ['\\', 'r']
  else if c = '\t' then ['\\', 't']
  else [c]

/-- escape from string.rs: emits the escape pair for each of the seven
escapable characters and passes every other character through unchanged. -/
def escape : List Char → List Char
  | [] => []
  | c :: rest => escape_char c ++ escape rest

/-! ## Lexeme model (src/src/json/token.rs)

The Float variant of IntOrFloatNumber carries the matched lexeme bytes
instead of a 64-bit IEEE-754 value: floating-point arithmetic is not
statable in this embedding, and no claim depends on the value of a float. -/

inductive IntOrFloatNumber where
  | Integer (value : Int)
  | Float (lexeme : List Nat)
  deriving DecidableEq

inductive Token where
  | BeginArray
  | EndArray
  | BeginObject
  | EndObject
  | NameSeparator
  | ValueSeparator
  | True
  | False
  | Null
  | Number (value : IntOrFloatNumber)
  | String (value : List Char)
  deriving DecidableEq

/-! ## UTF-8 decoding

Model of String::from_utf8 (used by consume_string on the raw bytes between
the quotes): none exactly when the bytes are not valid UTF-8, in which case
the unwrap in the Rust code panics. -/

def decode_utf8 : List Nat → Option (List Char)
  | [] => some []
  | b :: rest =>
    if b < 0x80 then
      (decode_utf8 rest).map (fun cs => Char.ofNat b :: cs)
    else if b < 0xC2 then none
    else if b < 0xE0 then
      match rest with
      | c1 :: rest1 =>
        if 0x80 ≤ c1 ∧ c1 < 0xC0 then
          (decode_utf8 rest1).map
            (fun cs => Char.ofNat ((b - 0xC0) * 0x40 + (c1 - 0x80)) :: cs)
        else none
      | [] => none
    else if b < 0xF0 then
      match rest with
      | c1 :: c2 :: rest2 =>
        if (if b = 0xE0 then 0xA0 else 0x80) ≤ c1 ∧
            c1 < (if b = 0xED then 0xA0 else 0xC0) ∧
            0x80 ≤ c2 ∧ c2 < 0xC0 then
          (decode_utf8 rest2).map
            (fun cs =>
              Char.ofNat ((b - 0xE0) * 0x1000 + (c1 - 0x80) * 0x40 + (c2 - 0x80)) :: cs)
        else none
      | _ => none
    else if b < 0xF5 then
      match rest with
      | c1 :: c2 :: c3 :: rest3 =>
        if (if b = 0xF0 then 0x90 else 0x80) ≤ c1 ∧
            c1 < (if b = 0xF4 then 0x90 else 0xC0) ∧
            0x80 ≤ c2 ∧ c2 < 0xC0 ∧ 0x80 ≤ c3 ∧ c3 < 0xC0 then
          (decode_utf8 rest3).map
            (fun cs =>
              Char.ofNat ((b - 0xF0) * 0x40000 + (c1 - 0x80) * 0x1000 +
                (c2 - 0x80) * 0x40 + (c3 - 0x80)) :: cs)
        else none
      | _ => none
    else none

/-! ## Tokenizer (src/src/json/tokenizer.rs) -/

/-- The whitespace skip of Tokenizer::consume_whitespaces: drop leading
space, tab, line-feed and carriage-return bytes. -/
def consume_whitespaces : List Nat → List Nat
  | [] => []
  | b :: rest =>
    if b = 0x20 || b = 0x09 || b = 0x0A || b = 0x0D then consume_whitespaces rest
    else b :: rest

/-- Tokenizer::consume_char: one-byte structural characters. -/
def consume_char : List Nat → Option (Token × List Nat)
  | [] => none
  | b :: rest =>
    if b = 0x5B then some (Token.BeginArray, rest)
    else if b = 0x5D then some (Token.EndArray, rest)
    else if b = 0x7B then some (Token.BeginObject, rest)
    else if b = 0x7D then some (Token.EndObject, rest)
    else if b = 0x3A then some (Token.NameSeparator, rest)
    else if b = 0x2C then some (Token.ValueSeparator, rest)
    else none

/-- Tokenizer::consume_bool_and_null: an exact 4-byte match of true or null
(requiring at least 4 bytes to remain), else a 5-byte match of false
(requiring at least 5 bytes to remain). -/
def consume_bool_and_null : List Nat → Option (Token × List Nat)
  | a :: b :: c :: d :: rest =>
    if a = 0x74 && b = 0x72 && c = 0x75 && d = 0x65 then some (Token.True, rest)
    else if a = 0x6E && b = 0x75 && c = 0x6C && d = 0x6C then some (Token.Null, rest)
    else
      match rest with
      | e :: rest2 =>
        if a = 0x66 && b = 0x61 && c = 0x6C && d = 0x73 && e = 0x65 then
          some (Token.False, rest2)
        else none
      | [] => none
  | _ => none

/-- Outcome of the byte loop inside Tokenizer::consume_string.  On failure
(no closing quote before the end of the buffer) the Rust loop leaves
self.index at len + overshoot: the backslash case skips one extra byte and
the UTF-8 lead-byte cases skip up to three extra bytes, so the cursor can
land strictly past the end of the buffer. -/
inductive StrScan where
  | ok (content : List Nat) (rest : List Nat)
  | fail (overshoot : Nat)
  deriving DecidableEq

mutual

/-- The loop of Tokenizer::consume_string, started just after the opening
quote.  acc accumulates the traversed bytes in reverse.  A backslash makes
the following byte part of the content without inspecting it; a byte with
the four (resp. three, two) top bits set makes the next three (resp. two,
one) bytes part of the content; the loop stops at the first byte equal to
the quote that is reached this way.  The skip helpers absorb the extra
bytes; when fewer bytes remain than are skipped, they report how far the
index of the Rust loop lands past the end of the buffer. -/
def string_body (acc : List Nat) : List Nat → StrScan
  | [] => StrScan.fail 0
  | b :: rest =>
    if b = 0x22 then StrScan.ok acc.reverse rest
    else if b = 0x5C then string_skip1 (b :: acc) rest
    else if b &&& 0xF0 = 0xF0 then string_skip3 (b :: acc) rest
    else if b &&& 0xE0 = 0xE0 then string_skip2 (b :: acc) rest
    else if b &&& 0xC0 = 0xC0 then string_skip1 (b :: acc) rest
    else string_body (b :: acc) rest
  termination_by structural l => l

/-- Skip one extra byte (after a backslash or a two-byte UTF-8 lead). -/
def string_skip1 (acc : List Nat) : List Nat → StrScan
  | [] => StrScan.fail 1
  | c :: rest => string_body (c :: acc) rest
  termination_by structural l => l

/-- Skip two extra bytes (after a three-byte UTF-8 lead). -/
def string_skip2 (acc : List Nat) : List Nat → StrScan
  | [] => StrScan.fail 2
  | [_] => StrScan.fail 1
  | c :: d :: rest => string_body (d :: c :: acc) rest
  termination_by structural l => l

/-- Skip three extra bytes (after a four-byte UTF-8 lead). -/
def string_skip3 (acc : List Nat) : List Nat → StrScan
  | [] => StrScan.fail 3
  | [_] => StrScan.fail 2
  | [_, _] => StrScan.fail 1
  | c :: d :: e :: rest => string_body (e :: d :: c :: acc) rest
  termination_by structural l => l

end

/-- Outcome of Tokenizer::consume_string as seen by Tokenizer::consume.
noquote: the head byte is not a quote, the cursor is unchanged.
stopped: the scan ran off the end with the cursor exactly at the end of the
buffer (the subsequent number scan then finds nothing and the iterator
stops).  over: the scan ran off the end with the cursor strictly past the
end, so the subsequent regex search of consume_number panics.  invalid: the
content bytes are not valid UTF-8 and the from_utf8 unwrap panics. -/
inductive StringScanOut where
  | token (t : Token) (rest : List Nat)
  | noquote
  | stopped
  | over
  | invalid
  deriving DecidableEq

/-- Tokenizer::consume_string: requires a leading quote, runs string_body,
decodes the raw content bytes as UTF-8 and unescapes them. -/
def consume_string (l : List Nat) : StringScanOut :=
  match l with
  | 0x22 :: rest =>
    (match string_body [] rest with
     | StrScan.ok content rest2 =>
       match decode_utf8 content with
       | some chars => StringScanOut.token (Token.String (unescape chars)) rest2
       | none => StringScanOut.invalid
     | StrScan.fail 0 => StringScanOut.stopped
     | StrScan.fail _ => StringScanOut.over)
  | _ => StringScanOut.noquote

/-! ## Number scanning

consume_int_number and consume_float_number drive library regexes anchored
at the cursor: captures_at searches forward from the cursor and the result
is kept only when the match starts exactly there, which is equivalent to an
anchored match at the cursor.  The two functions below compute the length of
that anchored match.  Both regexes are deterministic at a fixed start
position: the integer part prefers the single digit 0 and otherwise takes
the maximal nonzero-led digit run (backtracking it can never help, because
the continuation must start with a dot or an exponent letter, never a
digit), the first alternative of the float continuation (fraction then
optional exponent) is preferred over the second (mandatory exponent), and
an optional group that fails to match is skipped. -/

/-- ASCII decimal digit test on a byte. -/
def is_digit_byte (b : Nat) : Bool := 0x30 ≤ b && b ≤ 0x39

/-- Length of the maximal leading run of ASCII digits. -/
def take_digits_len : List Nat → Nat
  | [] => 0
  | b :: rest => if is_digit_byte b then take_digits_len rest + 1 else 0

/-- Length matched by the integer-part group (0|[1-9][0-9]*) at the cursor. -/
def int_core_len : List Nat → Option Nat
  | [] => none
  | b :: rest =>
    if b = 0x30 then some 1
    else if 0x31 ≤ b && b ≤ 0x39 then some (take_digits_len rest + 1)
    else none

/-- Length matched by the integer regex -?(0|[1-9][0-9]*) at the cursor. -/
def int_match_len : List Nat → Option Nat
  | 0x2D :: rest => (int_core_len rest).map (· + 1)
  | l => int_core_len l

/-- Length matched by the fraction group [.][0-9]+ at the cursor. -/
def frac_len : List Nat → Option Nat
  | 0x2E :: rest =>
    if take_digits_len rest = 0 then none else some (take_digits_len rest + 1)
  | _ => none

/-- Length matched by the exponent group [eE][+-]?[0-9]+ at the cursor. -/
def exp_len : List Nat → Option Nat
  | [] => none
  | b :: rest =>
    if b = 0x65 || b = 0x45 then
      match rest with
      | [] => none
      | s :: rest2 =>
        if s = 0x2B || s = 0x2D then
          if take_digits_len rest2 = 0 then none else some (take_digits_len rest2 + 2)
        else
          if take_digits_len rest = 0 then none else some (take_digits_len rest + 1)
    else none

/-- Length matched by the float continuation group
(frac exp? | frac? exp) with frac and exp mandatory where written: the
fraction-first alternative is preferred, and with it present the exponent
is optional. -/
def group2_len (l : List Nat) : Option Nat :=
  match frac_len l with
  | some fl => some (fl + (exp_len (l.drop fl)).getD 0)
  | none => exp_len l

/-- Length matched by the float regex
-?(0|[1-9][0-9]*)(([.][0-9]+)([eE][+-]?[0-9]+)?|([.][0-9]+)?([eE][+-]?[0-9]+))
at the cursor. -/
def float_match_len : List Nat → Option Nat
  | 0x2D :: rest => do
    let c ← int_core_len rest
    let g ← group2_len (rest.drop c)
    pure (1 + c + g)
  | l => do
    let c ← int_core_len l
    let g ← group2_len (l.drop c)
    pure (c + g)

/-- Decimal value of a run of ASCII digit bytes. -/
def digits_to_nat (l : List Nat) : Nat :=
  l.foldl (fun acc b => 10 * acc + (b - 0x30)) 0

/-- Value denoted by a matched integer lexeme (optional minus sign followed
by digits), as parsed by str::parse::<i64> before its range check. -/
def bytes_to_int : List Nat → Int
  | 0x2D :: rest => - (digits_to_nat rest : Int)
  | l => (digits_to_nat l : Int)

/-- Outcome of a number scan.  crash models a Rust panic: for the integer
scan, the unwrap of str::parse::<i64> on a matched literal outside the
signed 64-bit range. -/
inductive NumScan where
  | token (t : Token) (rest : List Nat)
  | nothing
  | crash
  deriving DecidableEq

/-- Tokenizer::consume_int_number: match the integer regex at the cursor,
convert the matched text with str::parse::<i64>().unwrap() (which panics
outside the i64 range), and advance by the match length. -/
def consume_int_number (l : List Nat) : NumScan :=
  match int_match_len l with
  | none => NumScan.nothing
  | some n =>
    let v := bytes_to_int (l.take n)
    if -(2 ^ 63 : Int) ≤ v ∧ v < 2 ^ 63 then
      NumScan.token (Token.Number (IntOrFloatNumber.Integer v)) (l.drop n)
    else NumScan.crash

/-- Tokenizer::consume_float_number: match the float regex at the cursor and
advance by the match length.  The f64 conversion cannot fail on text of this
shape (out-of-range magnitudes round to infinity), so no crash arises; the
token carries the matched lexeme bytes. -/
def consume_float_number (l : List Nat) : NumScan :=
  match float_match_len l with
  | none => NumScan.nothing
  | some n =>
    NumScan.token (Token.Number (IntOrFloatNumber.Float (l.take n))) (l.drop n)

/-- Tokenizer::consume_number: the float grammar is tried before the integer
grammar. -/
def consume_number (l : List Nat) : NumScan :=
  match consume_float_number l with
  | NumScan.nothing => consume_int_number l
  | r => r

/-- Outcome of one Tokenizer::consume step.  crash models a panic inside the
step: the captures_at overshoot panic, the from_utf8 unwrap, or the i64
overflow unwrap. -/
inductive Consume where
  | crash
  | stop
  | token (t : Token) (rest : List Nat)
  deriving DecidableEq

/-- Tokenizer::consume: skip whitespace, stop at the end of the buffer, then
try consume_char, consume_bool_and_null, consume_string and consume_number
in that order.  When the string scan fails with the cursor exactly at the
end of the buffer the number scan still runs (on the empty remainder); when
it fails with the cursor strictly past the end, captures_at in the number
scan panics.  consume_at is the body of the step after the whitespace
skip, taking the post-whitespace suffix. -/
def consume_at (l1 : List Nat) : Consume :=
  if l1.isEmpty then Consume.stop
  else
    match consume_char l1 with
    | some (t, r) => Consume.token t r
    | none =>
      match consume_bool_and_null l1 with
      | some (t, r) => Consume.token t r
      | none =>
        match consume_string l1 with
        | StringScanOut.token t r => Consume.token t r
        | StringScanOut.invalid => Consume.crash
        | StringScanOut.over => Consume.crash
        | StringScanOut.stopped =>
          (match consume_number ([] : List Nat) with
           | NumScan.token t r => Consume.token t r
           | NumScan.crash => Consume.crash
           | NumScan.nothing => Consume.stop)
        | StringScanOut.noquote =>
          match consume_number l1 with
          | NumScan.token t r => Consume.token t r
          | NumScan.crash => Consume.crash
          | NumScan.nothing => Consume.stop

def consume (l : List Nat) : Consume :=
  consume_at (consume_whitespaces l)

/-- Result of draining the tokenizer iterator.  out is fuel exhaustion,
which cannot occur for the fuel used by tokenize (tokenize_fuel_sufficient
below); crash propagates a panic of a consume step. -/
inductive TokensResult where
  | out
  | crash
  | toks (tokens : List Token)
  deriving DecidableEq

/-- The collect of TokenizerIterator: repeatedly run consume until it yields
nothing. -/
def tokenize_fuel : Nat → List Nat → TokensResult
  | 0, _ => TokensResult.out
  | fuel + 1, l =>
    match consume l with
    | Consume.crash => TokensResult.crash
    | Consume.stop => TokensResult.toks []
    | Consume.token t rest =>
      match tokenize_fuel fuel rest with
      | TokensResult.toks ts => TokensResult.toks (t :: ts)
      | TokensResult.out => TokensResult.out
      | TokensResult.crash => TokensResult.crash

/-- Tokenizer::tokenize: drain the iterator over the whole buffer.  Every
produced token consumes at least one byte (consume_shrinks below), so
length + 1 steps always suffice and the fuel-out branch is unreachable.
none models a panic during tokenization. -/
def Tokenizer.tokenize (l : List Nat) : Option (List Token) :=
  match tokenize_fuel (l.length + 1) l with
  | TokensResult.toks ts => some ts
  | _ => none

/-- Bytes of an ASCII string (every concrete input below is ASCII, where the
UTF-8 encoding is the identity on code points). -/
def ascii_bytes (s : String) : List Nat := s.toList.map Char.toNat

/-! ## Error model (src/src/json/parser_error.rs) -/

inductive ParserErrorKind where
  | UnexpectedToken
  | UnexpectedEOF
  deriving DecidableEq

structure ParserError where
  kind : ParserErrorKind
  deriving DecidableEq

def ParserError.new (kind : ParserErrorKind) : ParserError := ⟨kind⟩

/-! ## Value model (src/src/json/json_value.rs)

The HashMap<String, JSONValue> of the Object variant is modelled as an
association list together with map_insert / map_lookup below, which have the
replace-on-existing-key semantics of HashMap::insert and HashMap::get.  The
list order is a representation artifact (a hash map is unordered); no claim
depends on it.  The number payload type (util::signed_num_64::SignedNum64,
whose source file is not part of src/) is identified with IntOrFloatNumber
from token.rs: parse_value moves the token payload into the value unchanged,
so the two Rust types denote the same two-variant union described by the
spec (64-bit signed Integer or 64-bit Float). -/

inductive JSONValue where
  | True
  | False
  | Null
  | Object (contents : List (List Char × JSONValue))
  | Array (contents : List JSONValue)
  | Number (value : IntOrFloatNumber)
  | String (value : List Char)

/-- HashMap::insert: replace the value when the key is present, add the
binding otherwise. -/
def map_insert (k : List Char) (v : JSONValue) :
    List (List Char × JSONValue) → List (List Char × JSONValue)
  | [] => [(k, v)]
  | (k1, v1) :: rest =>
    if k1 = k then (k, v) :: rest else (k1, v1) :: map_insert k v rest

/-- HashMap::get: the value bound to the key, if any. -/
def map_lookup (k : List Char) : List (List Char × JSONValue) → Option JSONValue
  | [] => none
  | (k1, v1) :: rest => if k1 = k then some v1 else map_lookup k rest

/-- JSONValue::as_bool. -/
def JSONValue.as_bool : JSONValue → Option Bool
  | JSONValue.True => some true
  | JSONValue.False => some false
  | _ => none

/-- JSONValue::is_null. -/
def JSONValue.is_null : JSONValue → Bool
  | JSONValue.Null => true
  | _ => false

/-- JSONValue::is_array. -/
def JSONValue.is_array : JSONValue → Bool
  | JSONValue.Array _ => true
  | _ => false

/-- JSONValue::get_as_array: the Array contents if the variant is Array,
indexed by Vec::get (none when out of bounds). -/
def JSONValue.get_as_array (v : JSONValue) (index : Nat) : Option JSONValue :=
  (match v with
   | JSONValue.Array arr => some arr
   | _ => none).bind
    (fun arr => arr.get? index)

/-- JSONValue::is_object. -/
def JSONValue.is_object : JSONValue → Bool
  | JSONValue.Object _ => true
  | _ => false

/-- JSONValue::get_as_object: the Object contents if the variant is Object,
looked up by key with HashMap::get (none when the key is absent). -/
def JSONValue.get_as_object (v : JSONValue) (key : List Char) : Option JSONValue :=
  (match v with
   | JSONValue.Object obj => some obj
   | _ => none).bind
    (fun obj => map_lookup key obj)

/-! ## Parser (src/src/json/parser.rs)

Each parsing function consumes a prefix of the token list and returns the
unconsumed suffix; the peekable iterator of the source is this suffix (peek
inspects the head, next removes it).  The outer Option is fuel exhaustion,
which cannot occur for the fuel supplied by Parser.parse
(parser_fuel_sufficient below); the inner Except is the Rust Result. -/

abbrev PRes (α : Type) := Option (Except ParserError (α × List Token))

/-- Parser::consume_token: take the next token and require it to equal the
expected one.  Note that an exhausted iterator also yields UnexpectedToken
(next() returning None flows into the same ok_or). -/
def Parser.consume_token (t : Token) : List Token → Except ParserError (List Token)
  | [] => Except.error (ParserError.new ParserErrorKind.UnexpectedToken)
  | u :: rest =>
    if u = t then Except.ok rest
    else Except.error (ParserError.new ParserErrorKind.UnexpectedToken)

mutual

/-- Parser::parse_value: dispatch on one token of lookahead; an atom is
consumed directly, a begin-array or begin-object delegates (without
consuming), any other token is UnexpectedToken, and an empty remainder is
UnexpectedEOF. -/
def Parser.parse_value : Nat → List Token → PRes JSONValue
  | 0, _ => none
  | _ + 1, [] => some (Except.error (ParserError.new ParserErrorKind.UnexpectedEOF))
  | fuel + 1, t :: rest =>
    match t with
    | Token.True => some (Except.ok (JSONValue.True, rest))
    | Token.False => some (Except.ok (JSONValue.False, rest))
    | Token.Null => some (Except.ok (JSONValue.Null, rest))
    | Token.Number v => some (Except.ok (JSONValue.Number v, rest))
    | Token.String s => some (Except.ok (JSONValue.String s, rest))
    | Token.BeginArray => Parser.parse_array fuel (t :: rest)
    | Token.BeginObject => Parser.parse_object fuel (t :: rest)
    | _ => some (Except.error (ParserError.new ParserErrorKind.UnexpectedToken))

/-- Parser::parse_array: consume the begin-array token; unless the next
token is end-array (or nothing remains), parse a first value and then the
separator loop; finally consume the end-array token. -/
def Parser.parse_array : Nat → List Token → PRes JSONValue
  | 0, _ => none
  | fuel + 1, ts =>
    match Parser.consume_token Token.BeginArray ts with
    | Except.error e => some (Except.error e)
    | Except.ok r1 =>
      let body : PRes (List JSONValue) :=
        match r1 with
        | [] => some (Except.ok ([], r1))
        | next :: _ =>
          if next = Token.EndArray then some (Except.ok ([], r1))
          else
            match Parser.parse_value fuel r1 with
            | none => none
            | some (Except.error e) => some (Except.error e)
            | some (Except.ok (v, r2)) => Parser.parse_array_items fuel [v] r2
      match body with
      | none => none
      | some (Except.error e) => some (Except.error e)
      | some (Except.ok (vs, r3)) =>
        match Parser.consume_token Token.EndArray r3 with
        | Except.error e => some (Except.error e)
        | Except.ok r4 => some (Except.ok (JSONValue.Array vs, r4))

/-- The separator loop of Parser::parse_array: while the lookahead is a
value separator, consume it and parse another value. -/
def Parser.parse_array_items : Nat → List JSONValue → List Token → PRes (List JSONValue)
  | 0, _, _ => none
  | fuel + 1, acc, ts =>
    match ts with
    | Token.ValueSeparator :: r =>
      (match Parser.parse_value fuel r with
       | none => none
       | some (Except.error e) => some (Except.error e)
       | some (Except.ok (v, r2)) => Parser.parse_array_items fuel (acc ++ [v]) r2)
    | _ => some (Except.ok (acc, ts))

/-- Parser::parse_key_value_pair: the next token must be a string (an
exhausted iterator or any other token is UnexpectedToken), then a
name-separator, then a value. -/
def Parser.parse_key_value_pair : Nat → List Token → PRes (List Char × JSONValue)
  | 0, _ => none
  | fuel + 1, ts =>
    match ts with
    | Token.String key :: r1 =>
      (match Parser.consume_token Token.NameSeparator r1 with
       | Except.error e => some (Except.error e)
       | Except.ok r2 =>
         match Parser.parse_value fuel r2 with
         | none => none
         | some (Except.error e) => some (Except.error e)
         | some (Except.ok (v, r3)) => some (Except.ok ((key, v), r3)))
    | _ => some (Except.error (ParserError.new ParserErrorKind.UnexpectedToken))

/-- The separator loop of Parser::parse_object: while the lookahead is a
value separator, consume it, parse another member and insert it into the
map (overwriting any existing binding of the key). -/
def Parser.parse_object_items :
    Nat → List (List Char × JSONValue) → List Token → PRes (List (List Char × JSONValue))
  | 0, _, _ => none
  | fuel + 1, m, ts =>
    match ts with
    | Token.ValueSeparator :: r =>
      (match Parser.parse_key_value_pair fuel r with
       | none => none
       | some (Except.error e) => some (Except.error e)
       | some (Except.ok ((k, v), r2)) =>
         Parser.parse_object_items fuel (map_insert k v m) r2)
    | _ => some (Except.ok (m, ts))

/-- Parser::parse_object: consume the begin-object token; unless the next
token is end-object (or nothing remains), parse a first member into the
fresh map and then the separator loop; finally consume the end-object
token. -/
def Parser.parse_object : Nat → List Token → PRes JSONValue
  | 0, _ => none
  | fuel + 1, ts =>
    match Parser.consume_token Token.BeginObject ts with
    | Except.error e => some (Except.error e)
    | Except.ok r1 =>
      let body : PRes (List (List Char × JSONValue)) :=
        match r1 with
        | [] => some (Except.ok ([], r1))
        | next :: _ =>
          if next = Token.EndObject then some (Except.ok ([], r1))
          else
            match Parser.parse_key_value_pair fuel r1 with
            | none => none
            | some (Except.error e) => some (Except.error e)
            | some (Except.ok ((k, v), r2)) =>
              Parser.parse_object_items fuel (map_insert k v []) r2
      match body with
      | none => none
      | some (Except.error e) => some (Except.error e)
      | some (Except.ok (m, r3)) =>
        match Parser.consume_token Token.EndObject r3 with
        | Except.error e => some (Except.error e)
        | Except.ok r4 => some (Except.ok (JSONValue.Object m, r4))

end

/-- Parser::parse: tokenize, parse exactly one value, then require the token
list to be fully consumed.  none models a panic (in the tokenizer; the
parser itself cannot exhaust its fuel, see parser_fuel_sufficient). -/
def Parser.parse (text : List Nat) : Option (Except ParserError JSONValue) :=
  match Tokenizer.tokenize text with
  | none => none
  | some ts =>
    match Parser.parse_value (4 * ts.length + 4) ts with
    | none => none
    | some (Except.error e) => some (Except.error e)
    | some (Except.ok (v, rest)) =>
      some (if rest.isEmpty then Except.ok v
        else Except.error (ParserError.new ParserErrorKind.UnexpectedToken))

/-! ## Literal grammars

The sets of byte strings matched in full by the two number regexes of
tokenizer.rs, written out as predicates: these spell the regex text
-?(0|[1-9][0-9]*) resp.
-?(0|[1-9][0-9]*)(([.][0-9]+)([eE][+-]?[0-9]+)?|([.][0-9]+)?([eE][+-]?[0-9]+)). -/

/-- Byte strings matched by the group (0|[1-9][0-9]*). -/
def int_core_lit (core : List Nat) : Prop :=
  core = [0x30] ∨
    (∃ d ds, core = d :: ds ∧ 0x31 ≤ d ∧ d ≤ 0x39 ∧ ∀ b ∈ ds, is_digit_byte b = true)

/-- Byte strings matched in full by the integer regex -?(0|[1-9][0-9]*). -/
def int_literal (w : List Nat) : Prop :=
  ∃ core, (w = core ∨ w = 0x2D :: core) ∧ int_core_lit core

/-- Byte strings matched by the fraction group [.][0-9]+. -/
def frac_lit (f : List Nat) : Prop :=
  ∃ ds, f = 0x2E :: ds ∧ ds ≠ [] ∧ ∀ b ∈ ds, is_digit_byte b = true

/-- Byte strings matched by the exponent group [eE][+-]?[0-9]+. -/
def exp_lit (e : List Nat) : Prop :=
  ∃ eE sgn ds, e = eE :: (sgn ++ ds) ∧ (eE = 0x65 ∨ eE = 0x45) ∧
    (sgn = [] ∨ sgn = [0x2B] ∨ sgn = [0x2D]) ∧ ds ≠ [] ∧ ∀ b ∈ ds, is_digit_byte b = true

/-- Byte strings matched by the float continuation group
(([.][0-9]+)([eE][+-]?[0-9]+)?|([.][0-9]+)?([eE][+-]?[0-9]+)): a fraction
optionally followed by an exponent, or an exponent alone. -/
def group2_lit (g : List Nat) : Prop :=
  (∃ f e, g = f ++ e ∧ frac_lit f ∧ (e = [] ∨ exp_lit e)) ∨ exp_lit g

/-- Byte strings matched in full by the float regex. -/
def float_literal (w : List Nat) : Prop :=
  ∃ sgn core g, w = sgn ++ (core ++ g) ∧ (sgn = [] ∨ sgn = [0x2D]) ∧
    int_core_lit core ∧ group2_lit g

/-- The seven characters escape maps to a two-character escape sequence:
quote, backslash, backspace, form-feed, line-feed, carriage-return, tab. -/
def escapable_chars : List Char := ['"', '\\', '\x08', '\x0c', '\n', '\r', '\t']

/-! ## String codec lemmas -/

/-- A character other than a backslash is copied through by unescape. -/
theorem unescape_cons_not_backslash (c : Char) (r : List Char) (h : c ≠ '\\') :
    unescape (c :: r) = c :: unescape r := by
  rw [unescape, if_neg h]

/-- Unescaping the escape of one character, in front of any continuation,
recovers the character. -/
theorem unescape_escape_char (c : Char) (r : List Char) :
    unescape (escape_char c ++ r) = c :: unescape r := by
  by_cases h1 : c = '"'
  · subst h1; simp [escape_char, unescape, unescape_escaped]
  by_cases h2 : c = '\\'
  · subst h2; simp [escape_char, unescape, unescape_escaped]
  by_cases h3 : c = '\x08'
  · subst h3; simp [escape_char, unescape, unescape_escaped, h1, h2]
  by_cases h4 : c = '\x0c'
  · subst h4; simp [escape_char, unescape, unescape_escaped, h1, h2, h3]
  by_cases h5 : c = '\n'
  · subst h5; simp [escape_char, unescape, unescape_escaped, h1, h2, h3, h4]
  by_cases h6 : c = '\r'
  · subst h6; simp [escape_char, unescape, unescape_escaped, h1, h2, h3, h4, h5]
  by_cases h7 : c = '\t'
  · subst h7; simp [escape_char, unescape, unescape_escaped, h1, h2, h3, h4, h5, h6]
  · simp only [escape_char, h1, h2, h3, h4, h5, h6, h7, if_false]
    exact unescape_cons_not_backslash c r h2

/-- Round trip of the codec on every string. -/
theorem unescape_escape (s : List Char) : unescape (escape s) = s := by
  induction s with
  | nil => rfl
  | cons c rest ih => rw [escape, unescape_escape_char, ih]

/-- Reaching the \u handler: unescaping a backslash-u prefix runs
unescape_u on the remainder. -/
theorem unescape_backslash_u (r : List Char) :
    unescape ('\\' :: 'u' :: r) = unescape_u r := by
  simp [unescape, unescape_escaped]

/--
C7 amended: the malformed-escape policy of unescape, with the hexadecimal
condition as the code implements it: the four collected characters are
accepted by u32::from_str_radix whenever they form an optional leading plus
sign followed by hexadecimal digits (so a plus-prefixed escape such as
backslash-u+abc is accepted and is not replaced by the placeholder), and are
otherwise replaced by the question mark; a value that is no Unicode scalar
value is replaced by the question mark; a truncated backslash-u escape at
the end of input yields exactly one question mark, discarding the collected
characters and producing nothing further; a backslash that ends the input is
emitted literally; an unrecognized escape character is copied through
unchanged.
-/
theorem C7_unescape_malformed_policy :
    (∀ r : List Char, r.length ≤ 3 → unescape ('\\' :: 'u' :: r) = ['?']) ∧
    (∀ h1 h2 h3 h4 : Char, ∀ r : List Char,
      from_str_radix_16 [h1, h2, h3, h4] = none →
      unescape ('\\' :: 'u' :: h1 :: h2 :: h3 :: h4 :: r) = '?' :: unescape r) ∧
    (∀ h1 h2 h3 h4 : Char, ∀ r : List Char, ∀ n : Nat,
      from_str_radix_16 [h1, h2, h3, h4] = some n → from_u32 n = none →
      unescape ('\\' :: 'u' :: h1 :: h2 :: h3 :: h4 :: r) = '?' :: unescape r) ∧
    unescape ['\\'] = ['\\'] ∧
    (∀ e : Char, ∀ r : List Char,
      e ∉ (['"', '/', '\\', 'b', 'f', 'n', 'r', 't', 'u'] : List Char) →
      unescape ('\\' :: e :: r) = e :: unescape r) := by
  refine ⟨?_, ?_, ?_, rfl, ?_⟩
  · intro r h
    rw [unescape_backslash_u]
    match r, h with
    | [], _ => rfl
    | [_], _ => rfl
    | [_, _], _ => rfl
    | [_, _, _], _ => rfl
    | _ :: _ :: _ :: _ :: _, h => simp at h
  · intro h1 h2 h3 h4 r hx
    rw [unescape_backslash_u, unescape_u, hx]
  · intro h1 h2 h3 h4 r n hx hv
    rw [unescape_backslash_u, unescape_u, hx]
    simp [hv]
  · intro e r h
    simp only [List.mem_cons, List.not_mem_nil, not_or, or_false] at h
    obtain ⟨n1, n2, n3, n4, n5, n6, n7, n8, n9⟩ := h
    simp [unescape, unescape_escaped, n1, n2, n3, n4, n5, n6, n7, n8, n9]

/--
C7 counterexample: the claim states that a \u escape whose four characters
are not four hexadecimal digits contributes the placeholder; but the four
characters +abc (not hexadecimal digits) are accepted by from_str_radix, and
unescape produces U+0ABC rather than the placeholder.
-/
theorem C7_counterexample :
    unescape ['\\', 'u', '+', 'a', 'b', 'c'] = [Char.ofNat 0xABC] ∧
    Char.ofNat 0xABC ≠ '?' := by
  exact ⟨by decide, by decide⟩

/-- C7 witness: the amended policy applied at concrete inputs -- a
truncated escape, a non-hexadecimal escape, a surrogate escape, and an
unrecognized escape character. -/
theorem C7_unescape_malformed_policy_witness :
    unescape ['\\', 'u', '3', '0'] = ['?'] ∧
    unescape ['\\', 'u', 'x', '0', '0', '0', 'z'] = '?' :: unescape ['z'] ∧
    unescape ['\\', 'u', 'd', '8', '0', '0', 'z'] = '?' :: unescape ['z'] ∧
    unescape ['\\', 'q', 'z'] = 'q' :: unescape ['z'] :=
  ⟨C7_unescape_malformed_policy.1 ['3', '0'] (by decide),
   C7_unescape_malformed_policy.2.1 'x' '0' '0' '0' ['z'] (by decide),
   C7_unescape_malformed_policy.2.2.1 'd' '8' '0' '0' ['z'] 0xD800 (by decide) (by decide),
   C7_unescape_malformed_policy.2.2.2.2 'q' ['z'] (by decide)⟩

/--
C6: for every text consisting only of the seven escapable characters,
unescape of escape recovers the text; and unescape is total -- it is a plain
function to a string, never an error, illustrated on a truncated \u escape,
which degrades to the placeholder.
-/
theorem C6_roundtrip_escapable :
    (∀ s : List Char, (∀ c ∈ s, c ∈ escapable_chars) → unescape (escape s) = s) ∧
    unescape ['\\', 'u', '3', '0'] = ['?'] :=
  ⟨fun s _ => unescape_escape s, by decide⟩

/-- C6 witness: the round trip applied to the string listing all seven
escapable characters. -/
theorem C6_roundtrip_escapable_witness :
    unescape (escape escapable_chars) = escapable_chars :=
  C6_roundtrip_escapable.1 escapable_chars (fun _ hc => hc)

/--
C10: the round trip holds for every string, not only strings of escapable
characters, and indeed escape emits a backslash only as part of one of the
seven defined escape pairs: every non-escapable character is passed through
unchanged by escape_char.
-/
theorem C10_roundtrip_all :
    (∀ s : List Char, unescape (escape s) = s) ∧
    (∀ c : Char, c ∉ escapable_chars → escape_char c = [c]) := by
  refine ⟨unescape_escape, ?_⟩
  intro c h
  simp only [escapable_chars, List.mem_cons, List.not_mem_nil, not_or, or_false] at h
  obtain ⟨n1, n2, n3, n4, n5, n6, n7⟩ := h
  simp [escape_char, n1, n2, n3, n4, n5, n6, n7]

/-- C10 witness: the round trip on a sample string and the pass-through of
a non-escapable character. -/
theorem C10_roundtrip_all_witness :
    unescape (escape ['x', '\n', '\\']) = ['x', '\n', '\\'] ∧ escape_char 'x' = ['x'] :=
  ⟨C10_roundtrip_all.1 ['x', '\n', '\\'], C10_roundtrip_all.2 'x' (by decide)⟩

/-! ## Tokenizer lemmas: every produced token consumes at least one byte -/

/-- Skipping whitespace never lengthens the buffer. -/
theorem consume_whitespaces_length_le (l : List Nat) :
    (consume_whitespaces l).length ≤ l.length := by
  induction l with
  | nil => simp [consume_whitespaces]
  | cons b rest ih =>
    rw [consume_whitespaces]
    split
    · exact le_trans ih (Nat.le_succ _)
    · simp

/-- A structural character consumes one byte. -/
theorem consume_char_shrink (l : List Nat) (t : Token) (r : List Nat)
    (h : consume_char l = some (t, r)) : r.length < l.length := by
  cases l with
  | nil => simp [consume_char] at h
  | cons b rest =>
    simp only [consume_char] at h
    split_ifs at h <;> simp_all

/-- A true, false or null literal consumes four or five bytes. -/
theorem consume_bool_and_null_shrink (l : List Nat) (t : Token) (r : List Nat)
    (h : consume_bool_and_null l = some (t, r)) : r.length < l.length := by
  unfold consume_bool_and_null at h
  split at h
  · split_ifs at h
    · simp at h
      obtain ⟨-, rfl⟩ := h
      simp only [List.length_cons]
      omega
    · simp at h
      obtain ⟨-, rfl⟩ := h
      simp only [List.length_cons]
      omega
    · split at h
      · split_ifs at h
        simp at h
        obtain ⟨-, rfl⟩ := h
        simp only [List.length_cons]
        omega
      · exact absurd h (by simp)
  · exact absurd h (by simp)

mutual

/-- The string scan, when it finds a closing quote, leaves a strictly
shorter remainder than its input (joint statement for the skip helpers
follows below). -/
theorem string_body_shrink (acc : List Nat) (li : List Nat) (c r : List Nat)
    (h : string_body acc li = StrScan.ok c r) : r.length < li.length := by
  match li with
  | [] =>
    rw [string_body] at h
    exact absurd h (by simp)
  | b :: rest =>
    rw [string_body] at h
    split_ifs at h
    · simp at h
      obtain ⟨-, rfl⟩ := h
      simp only [List.length_cons]
      omega
    · have := string_skip1_shrink _ _ _ _ h
      simp only [List.length_cons]
      omega
    · have := string_skip3_shrink _ _ _ _ h
      simp only [List.length_cons]
      omega
    · have := string_skip2_shrink _ _ _ _ h
      simp only [List.length_cons]
      omega
    · have := string_skip1_shrink _ _ _ _ h
      simp only [List.length_cons]
      omega
    · have := string_body_shrink _ _ _ _ h
      simp only [List.length_cons]
      omega
termination_by li.length

/-- Companion to string_body_shrink for the one-byte skip. -/
theorem string_skip1_shrink (acc : List Nat) (li : List Nat) (c r : List Nat)
    (h : string_skip1 acc li = StrScan.ok c r) : r.length < li.length := by
  match li with
  | [] =>
    rw [string_skip1] at h
    exact absurd h (by simp)
  | x :: rest =>
    rw [string_skip1] at h
    have := string_body_shrink _ _ _ _ h
    simp only [List.length_cons]
    omega
termination_by li.length

/-- Companion to string_body_shrink for the two-byte skip. -/
theorem string_skip2_shrink (acc : List Nat) (li : List Nat) (c r : List Nat)
    (h : string_skip2 acc li = StrScan.ok c r) : r.length < li.length := by
  match li with
  | [] =>
    rw [string_skip2] at h
    exact absurd h (by simp)
  | [x] =>
    rw [string_skip2] at h
    exact absurd h (by simp)
  | x :: y :: rest =>
    rw [string_skip2] at h
    have := string_body_shrink _ _ _ _ h
    simp only [List.length_cons]
    omega
termination_by li.length

/-- Companion to string_body_shrink for the three-byte skip. -/
theorem string_skip3_shrink (acc : List Nat) (li : List Nat) (c r : List Nat)
    (h : string_skip3 acc li = StrScan.ok c r) : r.length < li.length := by
  match li with
  | [] =>
    rw [string_skip3] at h
    exact absurd h (by simp)
  | [x] =>
    rw [string_skip3] at h
    exact absurd h (by simp)
  | [x, y] =>
    rw [string_skip3] at h
    exact absurd h (by simp)
  | x :: y :: z :: rest =>
    rw [string_skip3] at h
    have := string_body_shrink _ _ _ _ h
    simp only [List.length_cons]
    omega
termination_by li.length

end

/-- A string lexeme consumes at least the opening quote. -/
theorem consume_string_shrink (l : List Nat) (t : Token) (r : List Nat)
    (h : consume_string l = StringScanOut.token t r) : r.length < l.length := by
  unfold consume_string at h
  split at h
  · rename_i rest
    split at h
    · rename_i content rest2 hsb
      have hlt := string_body_shrink [] rest content rest2 hsb
      split at h
      · simp at h
        obtain ⟨-, rfl⟩ := h
        simp only [List.length_cons]
        omega
      · exact absurd h (by simp)
    · exact absurd h (by simp)
    · exact absurd h (by simp)
  · exact absurd h (by simp)

/-- A digit run is no longer than the buffer. -/
theorem take_digits_len_le (l : List Nat) : take_digits_len l ≤ l.length := by
  induction l with
  | nil => simp [take_digits_len]
  | cons b rest ih =>
    rw [take_digits_len]
    split
    · simp only [List.length_cons]
      omega
    · simp

/-- The integer-part group matches at least one and at most all bytes. -/
theorem int_core_len_bounds (l : List Nat) (n : Nat) (h : int_core_len l = some n) :
    1 ≤ n ∧ n ≤ l.length := by
  cases l with
  | nil => simp [int_core_len] at h
  | cons b rest =>
    rw [int_core_len] at h
    have := take_digits_len_le rest
    split_ifs at h <;> simp at h <;> simp only [List.length_cons] <;> omega

/-- With a head byte other than the minus sign, the integer regex reduces to
its core group. -/
theorem int_match_len_eq_core (b : Nat) (rest : List Nat) (hb : b ≠ 0x2D) :
    int_match_len (b :: rest) = int_core_len (b :: rest) := by
  rw [int_match_len.eq_def]
  split
  · rename_i heq
    injection heq with h1 h2
    exact absurd h1 hb
  · rfl

/-- The integer regex matches at least one and at most all bytes. -/
theorem int_match_len_bounds (l : List Nat) (n : Nat) (h : int_match_len l = some n) :
    1 ≤ n ∧ n ≤ l.length := by
  cases l with
  | nil => simp [int_match_len, int_core_len] at h
  | cons b rest =>
    by_cases hb : b = 0x2D
    · subst hb
      rw [int_match_len] at h
      cases hc : int_core_len rest with
      | none => rw [hc] at h; simp at h
      | some m =>
        rw [hc] at h
        simp at h
        have := int_core_len_bounds rest m hc
        simp only [List.length_cons]
        omega
    · rw [int_match_len_eq_core b rest hb] at h
      exact int_core_len_bounds _ _ h

/-- With a head byte other than the dot, the fraction group does not
match. -/
theorem frac_len_eq_none (b : Nat) (rest : List Nat) (hb : b ≠ 0x2E) :
    frac_len (b :: rest) = none := by
  rw [frac_len.eq_def]
  split
  · rename_i heq
    injection heq with h1 h2
    exact absurd h1 hb
  · rfl

/-- The fraction group matches at least two and at most all bytes. -/
theorem frac_len_bounds (l : List Nat) (n : Nat) (h : frac_len l = some n) :
    2 ≤ n ∧ n ≤ l.length := by
  cases l with
  | nil => simp [frac_len] at h
  | cons b rest =>
    by_cases hb : b = 0x2E
    · subst hb
      rw [frac_len] at h
      have := take_digits_len_le rest
      split_ifs at h
      simp at h
      simp only [List.length_cons]
      omega
    · rw [frac_len_eq_none b rest hb] at h
      simp at h

/-- The exponent group matches at least two and at most all bytes. -/
theorem exp_len_bounds (l : List Nat) (n : Nat) (h : exp_len l = some n) :
    2 ≤ n ∧ n ≤ l.length := by
  cases l with
  | nil => simp [exp_len] at h
  | cons b rest =>
    cases rest with
    | nil =>
      rw [exp_len.eq_def] at h
      simp only at h
      split_ifs at h
    | cons s rest2 =>
      rw [exp_len.eq_def] at h
      simp only at h
      have h2 := take_digits_len_le rest2
      have h3 := take_digits_len_le (s :: rest2)
      split_ifs at h with hbe hs
      · simp at h
        obtain ⟨-, hz, hn⟩ := h
        simp only [List.length_cons] at *
        omega
      · simp at h
        simp only [List.length_cons] at *
        omega

/-- The float continuation group matches at least one and at most all
bytes. -/
theorem group2_len_bounds (l : List Nat) (n : Nat) (h : group2_len l = some n) :
    1 ≤ n ∧ n ≤ l.length := by
  unfold group2_len at h
  cases hf : frac_len l with
  | some fl =>
    rw [hf] at h
    simp at h
    have hfb := frac_len_bounds l fl hf
    cases he : exp_len (l.drop fl) with
    | none => rw [he] at h; simp at h; omega
    | some el =>
      rw [he] at h
      simp at h
      have heb := exp_len_bounds _ _ he
      have : (l.drop fl).length = l.length - fl := by simp
      omega
  | none =>
    rw [hf] at h
    have := exp_len_bounds l n h
    omega

/-- With a head byte other than the minus sign, the float regex reduces to
integer core followed by continuation. -/
theorem float_match_len_eq (b : Nat) (rest : List Nat) (hb : b ≠ 0x2D) :
    float_match_len (b :: rest) = (do
      let c ← int_core_len (b :: rest)
      let g ← group2_len ((b :: rest).drop c)
      pure (c + g)) := by
  rw [float_match_len.eq_def]
  split
  · rename_i heq
    injection heq with h1 h2
    exact absurd h1 hb
  · rfl

/-- The float regex matches at least one and at most all bytes. -/
theorem float_match_len_bounds (l : List Nat) (n : Nat) (h : float_match_len l = some n) :
    1 ≤ n ∧ n ≤ l.length := by
  cases l with
  | nil => simp [float_match_len, int_core_len] at h
  | cons b rest =>
    by_cases hb : b = 0x2D
    · subst hb
      rw [float_match_len] at h
      simp only [Option.bind_eq_bind, Option.bind_eq_some, Option.pure_def,
        Option.some.injEq] at h
      obtain ⟨m, hc, g, hg, hn⟩ := h
      have h1 := int_core_len_bounds rest m hc
      have h2 := group2_len_bounds _ _ hg
      have h3 : (rest.drop m).length = rest.length - m := by simp
      simp only [List.length_cons]
      omega
    · rw [float_match_len_eq b rest hb] at h
      simp only [Option.bind_eq_bind, Option.bind_eq_some, Option.pure_def,
        Option.some.injEq] at h
      obtain ⟨m, hc, g, hg, hn⟩ := h
      have h1 := int_core_len_bounds _ m hc
      have h2 := group2_len_bounds _ _ hg
      have h3 : ((b :: rest).drop m).length = (b :: rest).length - m := by simp
      simp only [List.length_cons] at *
      omega

/-- A number lexeme consumes at least one byte. -/
theorem consume_number_shrink (l : List Nat) (t : Token) (r : List Nat)
    (h : consume_number l = NumScan.token t r) : r.length < l.length := by
  unfold consume_number consume_float_number consume_int_number at h
  cases hf : float_match_len l with
  | some n =>
    rw [hf] at h
    simp at h
    obtain ⟨-, rfl⟩ := h
    have := float_match_len_bounds l n hf
    simp only [List.length_drop]
    omega
  | none =>
    rw [hf] at h
    simp only at h
    cases hi : int_match_len l with
    | none => rw [hi] at h; simp at h
    | some n =>
      rw [hi] at h
      simp only at h
      split_ifs at h
      simp at h
      obtain ⟨-, rfl⟩ := h
      have := int_match_len_bounds l n hi
      simp only [List.length_drop]
      omega

/-- Every token produced by a consume step leaves a strictly shorter
buffer: the basis for termination of the tokenizer drain. -/
theorem consume_shrinks (l : List Nat) (t : Token) (r : List Nat)
    (h : consume l = Consume.token t r) : r.length < l.length := by
  unfold consume at h
  have hws := consume_whitespaces_length_le l
  cases hw : consume_whitespaces l with
  | nil => rw [hw] at h; exact absurd h (by simp [consume_at])
  | cons b rest =>
    rw [hw] at h hws
    unfold consume_at at h
    rw [if_neg (by simp)] at h
    cases hcc : consume_char (b :: rest) with
    | some tr =>
      obtain ⟨t1, r1⟩ := tr
      rw [hcc] at h
      simp at h
      obtain ⟨rfl, rfl⟩ := h
      have := consume_char_shrink _ _ _ hcc
      omega
    | none =>
      rw [hcc] at h
      cases hcb : consume_bool_and_null (b :: rest) with
      | some tr =>
        obtain ⟨t1, r1⟩ := tr
        rw [hcb] at h
        simp at h
        obtain ⟨rfl, rfl⟩ := h
        have := consume_bool_and_null_shrink _ _ _ hcb
        omega
      | none =>
        rw [hcb] at h
        cases hcs : consume_string (b :: rest) with
        | token t2 r2 =>
          rw [hcs] at h
          simp at h
          obtain ⟨rfl, rfl⟩ := h
          have := consume_string_shrink _ _ _ hcs
          omega
        | invalid => rw [hcs] at h; exact absurd h (by simp)
        | over => rw [hcs] at h; exact absurd h (by simp)
        | stopped =>
          rw [hcs] at h
          simp only [show consume_number ([] : List Nat) = NumScan.nothing from rfl] at h
          exact absurd h (by simp)
        | noquote =>
          rw [hcs] at h
          cases hcn : consume_number (b :: rest) with
          | token t2 r2 =>
            rw [hcn] at h
            simp at h
            obtain ⟨rfl, rfl⟩ := h
            have := consume_number_shrink _ _ _ hcn
            omega
          | crash => rw [hcn] at h; exact absurd h (by simp)
          | nothing => rw [hcn] at h; exact absurd h (by simp)

/-- The fuel given by tokenize never runs out: every step that continues
consumes at least one byte. -/
theorem tokenize_fuel_sufficient (fuel : Nat) :
    ∀ l : List Nat, l.length < fuel → tokenize_fuel fuel l ≠ TokensResult.out := by
  induction fuel with
  | zero => intro l hl; omega
  | succ fuel ih =>
    intro l hl
    rw [tokenize_fuel]
    cases hc : consume l with
    | crash => simp
    | stop => simp
    | token t rest =>
      have hlt := consume_shrinks l t rest hc
      have hne : tokenize_fuel fuel rest ≠ TokensResult.out := ih rest (by omega)
      show (match tokenize_fuel fuel rest with
            | TokensResult.toks ts => TokensResult.toks (t :: ts)
            | TokensResult.out => TokensResult.out
            | TokensResult.crash => TokensResult.crash) ≠ TokensResult.out
      cases htf : tokenize_fuel fuel rest with
      | out => exact absurd htf hne
      | crash => simp [htf]
      | toks ts => simp [htf]

/-- Above the sufficient fuel, the result of the tokenizer drain does not
depend on the fuel: the fuel chosen by tokenize computes the value of the
unbounded Rust iterator. -/
theorem tokenize_fuel_stable (f1 : Nat) :
    ∀ f2 : Nat, ∀ l : List Nat, l.length < f1 → l.length < f2 →
      tokenize_fuel f1 l = tokenize_fuel f2 l := by
  induction f1 with
  | zero => intro f2 l h1; omega
  | succ f1 ih =>
    intro f2 l h1 h2
    cases f2 with
    | zero => omega
    | succ f2 =>
      rw [tokenize_fuel, tokenize_fuel]
      cases hc : consume l with
      | crash => rfl
      | stop => rfl
      | token t rest =>
        have hlt := consume_shrinks l t rest hc
        show (match tokenize_fuel f1 rest with
              | TokensResult.toks ts => TokensResult.toks (t :: ts)
              | TokensResult.out => TokensResult.out
              | TokensResult.crash => TokensResult.crash) =
            (match tokenize_fuel f2 rest with
              | TokensResult.toks ts => TokensResult.toks (t :: ts)
              | TokensResult.out => TokensResult.out
              | TokensResult.crash => TokensResult.crash)
        rw [ih f2 rest (by omega) (by omega)]

/-! ## Claims on the tokenizer stop condition and totality -/

/--
C3: the claim states that a failing scan step is treated identically to end
of input, with tokenize returning the lexemes scanned so far for every
input.  This theorem evaluates the code at the failing input: on the
two-byte input consisting of a double quote followed by a backslash, the
backslash skip of the string scan moves the cursor to 3, strictly past the
end of the 2-byte buffer, and captures_at in the subsequent number scan panics
(modelled as none) instead of returning the empty lexeme sequence.  The
second conjunct shows the contrasting silent truncation on an unterminated
string whose scan failure leaves the cursor exactly at the end, and the
third shows the stop on an unrecognized byte.
-/
theorem C3_scan_failure_panic :
    Tokenizer.tokenize [0x22, 0x5C] = none ∧
    Tokenizer.tokenize [0x22, 0x61] = some [] ∧
    Tokenizer.tokenize [0x40] = some [] :=
  ⟨rfl, rfl, rfl⟩

/--
C9 amended: the integer conversion of consume_int_number is unguarded, and
whenever the digits matched by the integer regex denote a value within the
signed 64-bit range the failure branch is not taken; the literal
9223372036854775808 overflows and the conversion panics, so parse is not
total -- but tokenize is also not total on in-range inputs, because of the
unrelated string-scan overshoot panic (see C3), so totality holds only for
inputs avoiding both panics.
-/
theorem C9_unguarded_conversion :
    (∀ (l : List Nat) (n : Nat), int_match_len l = some n →
      -(2 ^ 63 : Int) ≤ bytes_to_int (l.take n) → bytes_to_int (l.take n) < 2 ^ 63 →
      consume_int_number l =
        NumScan.token (Token.Number (IntOrFloatNumber.Integer (bytes_to_int (l.take n))))
          (l.drop n)) ∧
    Tokenizer.tokenize (ascii_bytes "9223372036854775808") = none ∧
    Parser.parse (ascii_bytes "9223372036854775808") = none := by
  refine ⟨?_, rfl, rfl⟩
  intro l n h h1 h2
  simp only [consume_int_number, h]
  rw [if_pos ⟨h1, h2⟩]

/--
C9 counterexample: the claim asserts that tokenize (hence parse) is total
on every input whose integer literals are all within the signed 64-bit
range; the input consisting of a double quote followed by a backslash
contains no integer literal at all, yet parse panics on it.
-/
theorem C9_counterexample : Parser.parse [0x22, 0x5C] = none := rfl

/-- C9 witness: the in-range conversion applied to the literal 123. -/
theorem C9_unguarded_conversion_witness :
    consume_int_number (ascii_bytes "123") =
      NumScan.token
        (Token.Number (IntOrFloatNumber.Integer (bytes_to_int ((ascii_bytes "123").take 3))))
        ((ascii_bytes "123").drop 3) :=
  C9_unguarded_conversion.1 (ascii_bytes "123") 3 (by decide) (by decide) (by decide)

/-! ## Claims on the value model -/

/-- Inserting a binding makes lookup of its key yield its value. -/
theorem map_lookup_insert (m : List (List Char × JSONValue)) (k : List Char) (v : JSONValue) :
    map_lookup k (map_insert k v m) = some v := by
  induction m with
  | nil => simp [map_insert, map_lookup]
  | cons p rest ih =>
    obtain ⟨k1, v1⟩ := p
    by_cases h : k1 = k
    · subst h
      simp [map_insert, map_lookup]
    · simp [map_insert, map_lookup, h, ih]

/--
C5: the later of two bindings of the same key overwrites the earlier one
in the map the object loop builds (HashMap::insert replaces), and parsing
an object with a duplicate key yields the mapping of the last occurrence:
key a maps to Integer 2.
-/
theorem C5_duplicate_key_last_wins :
    (∀ (m : List (List Char × JSONValue)) (k : List Char) (v1 v2 : JSONValue),
      map_lookup k (map_insert k v2 (map_insert k v1 m)) = some v2) ∧
    Parser.parse (ascii_bytes "\x7b\"a\":1,\"a\":2\x7d") =
      some (Except.ok
        (JSONValue.Object [(['a'], JSONValue.Number (IntOrFloatNumber.Integer 2))])) ∧
    JSONValue.get_as_object
        (JSONValue.Object [(['a'], JSONValue.Number (IntOrFloatNumber.Integer 2))]) ['a'] =
      some (JSONValue.Number (IntOrFloatNumber.Integer 2)) :=
  ⟨fun m k v1 v2 => map_lookup_insert (map_insert k v1 m) k v2, rfl, rfl⟩

/--
C8: get_as_array yields the index-th element of an Array and none on an
out-of-bounds index or a non-Array variant; get_as_object yields the value
bound to the key in an Object, none when the key is absent, and none on a
non-Object variant.  Both are plain total functions.
-/
theorem C8_accessors :
    (∀ (arr : List JSONValue) (i : Nat) (h : i < arr.length),
      JSONValue.get_as_array (JSONValue.Array arr) i = some (arr.get ⟨i, h⟩)) ∧
    (∀ (arr : List JSONValue) (i : Nat), arr.length ≤ i →
      JSONValue.get_as_array (JSONValue.Array arr) i = none) ∧
    (∀ (v : JSONValue) (i : Nat), (∀ arr, v ≠ JSONValue.Array arr) →
      JSONValue.get_as_array v i = none) ∧
    (∀ (obj : List (List Char × JSONValue)) (k : List Char),
      JSONValue.get_as_object (JSONValue.Object obj) k = map_lookup k obj) ∧
    (∀ (obj : List (List Char × JSONValue)) (k : List Char),
      (∀ p ∈ obj, p.1 ≠ k) → JSONValue.get_as_object (JSONValue.Object obj) k = none) ∧
    (∀ (v : JSONValue) (k : List Char), (∀ obj, v ≠ JSONValue.Object obj) →
      JSONValue.get_as_object v k = none) := by
  refine ⟨?_, ?_, ?_, ?_, ?_, ?_⟩
  · intro arr i h
    simp [JSONValue.get_as_array, List.get?_eq_get h]
  · intro arr i h
    simp [JSONValue.get_as_array, List.get?_eq_none]
    exact h
  · intro v i h
    cases v with
    | Array arr => exact absurd rfl (h arr)
    | _ => rfl
  · intro obj k
    rfl
  · intro obj k h
    show map_lookup k obj = none
    induction obj with
    | nil => rfl
    | cons p rest ih =>
      obtain ⟨k1, v1⟩ := p
      have hk : k1 ≠ k := h (k1, v1) (by simp)
      simp only [map_lookup, if_neg hk]
      exact ih (fun p hp => h p (by simp [hp]))
  · intro v k h
    cases v with
    | Object obj => exact absurd rfl (h obj)
    | _ => rfl

/-- C8 witness: each accessor case at a concrete value. -/
theorem C8_accessors_witness :
    JSONValue.get_as_array (JSONValue.Array [JSONValue.True]) 0 = some JSONValue.True ∧
    JSONValue.get_as_array (JSONValue.Array []) 0 = none ∧
    JSONValue.get_as_array JSONValue.Null 0 = none ∧
    JSONValue.get_as_object (JSONValue.Object [(['a'], JSONValue.Null)]) ['a'] =
      map_lookup ['a'] [(['a'], JSONValue.Null)] ∧
    JSONValue.get_as_object (JSONValue.Object [(['a'], JSONValue.Null)]) ['b'] = none ∧
    JSONValue.get_as_object JSONValue.Null ['a'] = none :=
  ⟨(C8_accessors.1 [JSONValue.True] 0 (by decide)).trans rfl,
   C8_accessors.2.1 [] 0 (by decide),
   C8_accessors.2.2.1 JSONValue.Null 0 (fun arr h => JSONValue.noConfusion h),
   C8_accessors.2.2.2.1 [(['a'], JSONValue.Null)] ['a'],
   C8_accessors.2.2.2.2.1 [(['a'], JSONValue.Null)] ['b'] (by decide),
   C8_accessors.2.2.2.2.2 JSONValue.Null ['a'] (fun obj h => JSONValue.noConfusion h)⟩

/-! ## Claims on the parser error taxonomy and top-level contract -/

/--
C1 amended: an empty remainder where a value was required yields
UnexpectedEOF, but an empty remainder where a specific delimiter or
separator was required flows through the ok_or of consume_token and yields
UnexpectedToken -- not UnexpectedEOF as the claim states; a present lexeme
that does not fit the grammar position yields UnexpectedToken in both
places.  Concretely: parsing "[1" (a missing closing bracket at end of
input) and parsing a lone open-brace-quote-a-quote (a missing name
separator at end of input) yield UnexpectedToken, while "[1," (a missing
value at end of input) yields UnexpectedEOF.
-/
theorem C1_error_taxonomy :
    (∀ fuel : Nat, Parser.parse_value (fuel + 1) [] =
      some (Except.error (ParserError.new ParserErrorKind.UnexpectedEOF))) ∧
    (∀ t : Token, Parser.consume_token t [] =
      Except.error (ParserError.new ParserErrorKind.UnexpectedToken)) ∧
    (∀ (fuel : Nat) (ts : List Token) (t : Token),
      (t = Token.EndArray ∨ t = Token.EndObject ∨ t = Token.NameSeparator ∨
        t = Token.ValueSeparator) →
      Parser.parse_value (fuel + 1) (t :: ts) =
        some (Except.error (ParserError.new ParserErrorKind.UnexpectedToken))) ∧
    (∀ (t u : Token) (ts : List Token), u ≠ t →
      Parser.consume_token t (u :: ts) =
        Except.error (ParserError.new ParserErrorKind.UnexpectedToken)) ∧
    Parser.parse (ascii_bytes "[1") =
      some (Except.error (ParserError.new ParserErrorKind.UnexpectedToken)) ∧
    Parser.parse (ascii_bytes "\x7b\"a\"") =
      some (Except.error (ParserError.new ParserErrorKind.UnexpectedToken)) ∧
    Parser.parse (ascii_bytes "[1,") =
      some (Except.error (ParserError.new ParserErrorKind.UnexpectedEOF)) := by
  refine ⟨fun fuel => rfl, fun t => rfl, ?_, ?_, rfl, rfl, rfl⟩
  · intro fuel ts t h
    rcases h with rfl | rfl | rfl | rfl <;> rfl
  · intro t u ts h
    simp [Parser.consume_token, h]

/--
C1 counterexample: after the tokens of "[1" the closing bracket is
required and the lexeme sequence is exhausted, yet the parser reports
UnexpectedToken, not UnexpectedEOF as the claim states.
-/
theorem C1_counterexample :
    Parser.parse (ascii_bytes "[1") ≠
      some (Except.error (ParserError.new ParserErrorKind.UnexpectedEOF)) := by
  intro h
  rw [show Parser.parse (ascii_bytes "[1") =
    some (Except.error (ParserError.new ParserErrorKind.UnexpectedToken)) from rfl] at h
  simp [ParserError.new] at h

/-- C1 witness: the amended taxonomy applied at concrete inputs. -/
theorem C1_error_taxonomy_witness :
    Parser.parse_value 1 [Token.EndArray] =
      some (Except.error (ParserError.new ParserErrorKind.UnexpectedToken)) ∧
    Parser.consume_token Token.NameSeparator [Token.True] =
      Except.error (ParserError.new ParserErrorKind.UnexpectedToken) :=
  ⟨C1_error_taxonomy.2.2.1 0 [] Token.EndArray (Or.inl rfl),
   C1_error_taxonomy.2.2.2.1 Token.NameSeparator Token.True [] (by decide)⟩

/--
C2: parse parses exactly one value and then requires the lexeme sequence to
be fully consumed: whenever the tokens of the input are a complete value
followed by a nonempty remainder, parse yields UnexpectedToken, as on
"true true"; and when the token sequence is empty -- in particular on empty
input -- parse yields UnexpectedEOF.
-/
theorem C2_exactly_one_value :
    (∀ (text : List Nat) (ts : List Token) (v : JSONValue) (rest : List Token),
      Tokenizer.tokenize text = some ts →
      Parser.parse_value (4 * ts.length + 4) ts = some (Except.ok (v, rest)) →
      rest ≠ [] →
      Parser.parse text = some (Except.error (ParserError.new ParserErrorKind.UnexpectedToken))) ∧
    (∀ text : List Nat, Tokenizer.tokenize text = some [] →
      Parser.parse text = some (Except.error (ParserError.new ParserErrorKind.UnexpectedEOF))) ∧
    Parser.parse (ascii_bytes "true true") =
      some (Except.error (ParserError.new ParserErrorKind.UnexpectedToken)) ∧
    Parser.parse [] = some (Except.error (ParserError.new ParserErrorKind.UnexpectedEOF)) := by
  refine ⟨?_, ?_, rfl, rfl⟩
  · intro text ts v rest h1 h2 h3
    unfold Parser.parse
    rw [h1]
    show (match Parser.parse_value (4 * ts.length + 4) ts with
      | none => none
      | some (Except.error e) => some (Except.error e)
      | some (Except.ok (v, rest)) =>
        some (if rest.isEmpty then Except.ok v
          else Except.error (ParserError.new ParserErrorKind.UnexpectedToken))) =
      some (Except.error (ParserError.new ParserErrorKind.UnexpectedToken))
    rw [h2]
    have h4 : rest.isEmpty = false := by
      cases rest with
      | nil => exact absurd rfl h3
      | cons x xs => rfl
    simp [h4]
  · intro text h
    unfold Parser.parse
    rw [h]
    rfl

/-- C2 witness: the contract applied to "true true" and to the empty
input. -/
theorem C2_exactly_one_value_witness :
    Parser.parse (ascii_bytes "true true") =
      some (Except.error (ParserError.new ParserErrorKind.UnexpectedToken)) ∧
    Parser.parse [] = some (Except.error (ParserError.new ParserErrorKind.UnexpectedEOF)) :=
  ⟨C2_exactly_one_value.1 (ascii_bytes "true true") [Token.True, Token.True] JSONValue.True
      [Token.True] rfl rfl (by decide),
   C2_exactly_one_value.2.1 [] rfl⟩

/-! ## Exact matches of the number regexes on full literals -/

/-- A digit run takes all its digits and continues into the suffix. -/
theorem take_digits_len_append (ds r : List Nat) (h : ∀ b ∈ ds, is_digit_byte b = true) :
    take_digits_len (ds ++ r) = ds.length + take_digits_len r := by
  induction ds with
  | nil => simp
  | cons d ds2 ih =>
    have hd : is_digit_byte d = true := h d (by simp)
    rw [List.cons_append, take_digits_len, if_pos hd, ih (fun b hb => h b (by simp [hb]))]
    simp only [List.length_cons]
    omega

/-- A buffer whose head is not a digit starts no digit run. -/
theorem take_digits_len_zero (r : List Nat)
    (h : r = [] ∨ ∃ b rest, r = b :: rest ∧ is_digit_byte b = false) :
    take_digits_len r = 0 := by
  rcases h with rfl | ⟨b, rest, rfl, hb⟩
  · rfl
  · rw [take_digits_len, if_neg (by simp [hb])]

/-- The integer-part group, on a full core literal followed by a suffix that
starts with no digit, matches exactly the core. -/
theorem int_core_len_exact (core r : List Nat) (hc : int_core_lit core)
    (hr : take_digits_len r = 0) : int_core_len (core ++ r) = some core.length := by
  rcases hc with rfl | ⟨d, ds, rfl, hd1, hd2, hds⟩
  · rw [List.cons_append, List.nil_append, int_core_len, if_pos rfl]
    rfl
  · have hd0 : d ≠ 0x30 := by omega
    rw [List.cons_append, int_core_len, if_neg hd0, if_pos (by simp; omega),
      take_digits_len_append ds r hds, hr]
    simp

/-- The integer regex, on a full integer literal followed by nothing,
matches the whole literal. -/
theorem int_match_len_exact (w : List Nat) (hw : int_literal w) :
    int_match_len w = some w.length := by
  obtain ⟨core, hsh, hc⟩ := hw
  have hcore : int_core_len core = some core.length := by
    have := int_core_len_exact core [] hc rfl
    simpa using this
  rcases hsh with rfl | rfl
  · rcases hc with rfl | ⟨d, ds, rfl, hd1, hd2, hds⟩
    · rw [int_match_len.eq_def]
      split
      · rename_i heq
        injection heq with h1 h2
        omega
      · exact hcore
    · rw [int_match_len.eq_def]
      split
      · rename_i heq
        injection heq with h1 h2
        omega
      · exact hcore
  · rw [int_match_len, hcore]
    simp

/-- An exponent-letter head starts no digit run. -/
theorem exp_lit_take_zero (e : List Nat) (he : exp_lit e) : take_digits_len e = 0 := by
  obtain ⟨eE, sgn, ds, rfl, heE, -, -, -⟩ := he
  apply take_digits_len_zero
  rcases heE with rfl | rfl
  · exact Or.inr ⟨0x65, _, rfl, by decide⟩
  · exact Or.inr ⟨0x45, _, rfl, by decide⟩

/-- The exponent group, on a full exponent literal followed by a suffix
that starts with no digit, matches exactly the literal. -/
theorem exp_len_exact (e r : List Nat) (he : exp_lit e) (hr : take_digits_len r = 0) :
    exp_len (e ++ r) = some e.length := by
  obtain ⟨eE, sgn, ds, rfl, heE, hsgn, hne, hds⟩ := he
  have heE1 : (eE = 0x65 || eE = 0x45) = true := by
    rcases heE with rfl | rfl <;> decide
  obtain ⟨d0, ds2, rfl⟩ : ∃ d0 ds2, ds = d0 :: ds2 := by
    cases ds with
    | nil => exact absurd rfl hne
    | cons d0 ds2 => exact ⟨d0, ds2, rfl⟩
  have hd0 : is_digit_byte d0 = true := hds d0 (by simp)
  have htd : take_digits_len (d0 :: (ds2 ++ r)) = (d0 :: ds2).length := by
    rw [show d0 :: (ds2 ++ r) = (d0 :: ds2) ++ r from rfl,
      take_digits_len_append _ r hds, hr]
    omega
  rcases hsgn with rfl | rfl | rfl
  · simp only [List.nil_append, List.cons_append]
    rw [exp_len.eq_def]
    simp only
    rw [if_pos heE1]
    have hd0n : (d0 = 0x2B || d0 = 0x2D) = false := by
      have hd : 0x30 ≤ d0 ∧ d0 ≤ 0x39 := by simpa [is_digit_byte] using hd0
      simp only [Bool.or_eq_false_iff, decide_eq_false_iff_not]
      omega
    rw [hd0n]
    simp only [Bool.false_eq_true, if_false, htd]
    rw [if_neg (by simp)]
    simp
  · simp only [List.cons_append, List.nil_append]
    rw [exp_len.eq_def]
    simp only
    rw [if_pos heE1, if_pos (by decide), htd]
    rw [if_neg (by simp)]
    simp
  · simp only [List.cons_append, List.nil_append]
    rw [exp_len.eq_def]
    simp only
    rw [if_pos heE1, if_pos (by decide), htd]
    rw [if_neg (by simp)]
    simp

/-- The fraction group, on a full fraction literal followed by a suffix
that starts with no digit, matches exactly the literal. -/
theorem frac_len_exact (f r : List Nat) (hf : frac_lit f) (hr : take_digits_len r = 0) :
    frac_len (f ++ r) = some f.length := by
  obtain ⟨ds, rfl, hne, hds⟩ := hf
  obtain ⟨d0, ds2, rfl⟩ : ∃ d0 ds2, ds = d0 :: ds2 := by
    cases ds with
    | nil => exact absurd rfl hne
    | cons d0 ds2 => exact ⟨d0, ds2, rfl⟩
  rw [List.cons_append, frac_len, take_digits_len_append _ r hds, hr]
  rw [if_neg (by simp)]
  simp

/-- A fraction or exponent head starts no digit run. -/
theorem group2_lit_take_zero (g : List Nat) (hg : group2_lit g) : take_digits_len g = 0 := by
  rcases hg with ⟨f, e, rfl, ⟨ds, rfl, -, -⟩, -⟩ | he
  · apply take_digits_len_zero
    exact Or.inr ⟨0x2E, ds ++ e, by simp, by decide⟩
  · exact exp_lit_take_zero g he

/-- The float continuation group, on a full continuation literal followed
by nothing, matches the whole literal. -/
theorem group2_len_exact (g : List Nat) (hg : group2_lit g) :
    group2_len g = some g.length := by
  rcases hg with ⟨f, e, rfl, hf, he⟩ | he
  · have hfe : frac_len (f ++ e) = some f.length := by
      apply frac_len_exact f e hf
      rcases he with rfl | he2
      · rfl
      · exact exp_lit_take_zero e he2
    unfold group2_len
    rw [hfe]
    simp only
    rw [List.drop_left]
    rcases he with rfl | he2
    · simp [exp_len]
    · have := exp_len_exact e [] he2 rfl
      rw [List.append_nil] at this
      rw [this]
      simp
  · have hfr : frac_len g = none := by
      obtain ⟨eE, sgn, ds, rfl, heE, -, -, -⟩ := he
      apply frac_len_eq_none
      rcases heE with rfl | rfl <;> decide
    unfold group2_len
    rw [hfr]
    have := exp_len_exact g [] he rfl
    rw [List.append_nil] at this
    exact this

/-- The float regex, on a full float literal, matches the whole literal. -/
theorem float_match_len_exact (w : List Nat) (hw : float_literal w) :
    float_match_len w = some w.length := by
  obtain ⟨sgn, core, g, rfl, hsgn, hc, hg⟩ := hw
  have hcg : int_core_len (core ++ g) = some core.length :=
    int_core_len_exact core g hc (group2_lit_take_zero g hg)
  have hgl : group2_len g = some g.length := group2_len_exact g hg
  obtain ⟨c0, core2, rfl⟩ : ∃ c0 core2, core = c0 :: core2 := by
    rcases hc with rfl | ⟨d, ds, rfl, -, -, -⟩
    · exact ⟨0x30, [], rfl⟩
    · exact ⟨d, ds, rfl⟩
  have hc0 : c0 ≠ 0x2D := by
    rcases hc with hh | ⟨d, ds, hh, hd1, hd2, -⟩
    · injection hh with h1 h2
      omega
    · injection hh with h1 h2
      omega
  rcases hsgn with rfl | rfl
  · rw [List.nil_append, List.cons_append, float_match_len_eq c0 (core2 ++ g) hc0]
    rw [← List.cons_append, hcg]
    simp only [Option.bind_eq_bind, Option.some_bind]
    rw [List.drop_left, hgl]
    simp
    omega
  · simp only [List.cons_append, List.nil_append]
    rw [float_match_len, ← List.cons_append, hcg]
    simp only [Option.bind_eq_bind, Option.some_bind]
    rw [List.drop_left, hgl]
    simp
    omega

/-- The float regex does not match an integer literal (no fraction, no
exponent: the continuation group has nothing to match). -/
theorem float_match_len_none_int (w : List Nat) (hw : int_literal w) :
    float_match_len w = none := by
  obtain ⟨core, hsh, hc⟩ := hw
  have hcore : int_core_len core = some core.length := by
    have := int_core_len_exact core [] hc rfl
    simpa using this
  have hg : group2_len ([] : List Nat) = none := rfl
  obtain ⟨c0, core2, rfl⟩ : ∃ c0 core2, core = c0 :: core2 := by
    rcases hc with rfl | ⟨d, ds, rfl, -, -, -⟩
    · exact ⟨0x30, [], rfl⟩
    · exact ⟨d, ds, rfl⟩
  have hc0 : c0 ≠ 0x2D := by
    rcases hc with hh | ⟨d, ds, hh, hd1, hd2, -⟩
    · injection hh with h1 h2
      omega
    · injection hh with h1 h2
      omega
  rcases hsh with rfl | rfl
  · rw [float_match_len_eq c0 core2 hc0, hcore]
    simp only [Option.bind_eq_bind, Option.some_bind]
    rw [List.drop_length]
    rfl
  · rw [float_match_len, hcore]
    simp only [Option.bind_eq_bind, Option.some_bind]
    rw [List.drop_length]
    rfl

/-- A non-whitespace head byte stops the whitespace skip at once. -/
theorem consume_whitespaces_cons_no_ws (b : Nat) (r : List Nat) (h20 : b ≠ 0x20)
    (h09 : b ≠ 0x09) (h0A : b ≠ 0x0A) (h0D : b ≠ 0x0D) :
    consume_whitespaces (b :: r) = b :: r := by
  rw [consume_whitespaces, if_neg (by simp [h20, h09, h0A, h0D])]

/-- A non-structural head byte fails consume_char. -/
theorem consume_char_none (b : Nat) (r : List Nat) (h1 : b ≠ 0x5B) (h2 : b ≠ 0x5D)
    (h3 : b ≠ 0x7B) (h4 : b ≠ 0x7D) (h5 : b ≠ 0x3A) (h6 : b ≠ 0x2C) :
    consume_char (b :: r) = none := by
  simp [consume_char, h1, h2, h3, h4, h5, h6]

/-- A head byte that starts none of true, null and false fails
consume_bool_and_null. -/
theorem consume_bool_and_null_none (b : Nat) (r : List Nat) (h1 : b ≠ 0x74)
    (h2 : b ≠ 0x6E) (h3 : b ≠ 0x66) : consume_bool_and_null (b :: r) = none := by
  match r with
  | [] => rfl
  | [_] => rfl
  | [_, _] => rfl
  | x :: y :: z :: rest =>
    rw [consume_bool_and_null.eq_def]
    simp only
    rw [if_neg (by simp [h1]), if_neg (by simp [h2])]
    cases rest with
    | nil => rfl
    | cons e rest2 =>
      simp [h3]

/-- A head byte other than the quote makes the string scan report no
match, leaving the cursor unchanged. -/
theorem consume_string_noquote (b : Nat) (r : List Nat) (hb : b ≠ 0x22) :
    consume_string (b :: r) = StringScanOut.noquote := by
  rw [consume_string.eq_def]
  split
  · rename_i heq
    injection heq with hh1 hh2
    exact absurd hh1 hb
  · rfl

/-- On a buffer whose head byte is a minus sign or a digit, a consume step
reduces to the number scan. -/
theorem consume_literal_start (b : Nat) (r : List Nat)
    (hb : b = 0x2D ∨ (0x30 ≤ b ∧ b ≤ 0x39)) :
    consume (b :: r) =
      (match consume_number (b :: r) with
       | NumScan.token t rest => Consume.token t rest
       | NumScan.crash => Consume.crash
       | NumScan.nothing => Consume.stop) := by
  have hx : ∀ c : Nat, c ∈ ([0x20, 0x09, 0x0A, 0x0D, 0x5B, 0x5D, 0x7B, 0x7D, 0x3A, 0x2C,
      0x74, 0x6E, 0x66, 0x22] : List Nat) → b ≠ c := by
    intro c hc
    rcases hb with rfl | hh <;> (simp at hc; omega)
  unfold consume
  rw [consume_whitespaces_cons_no_ws b r (hx _ (by decide)) (hx _ (by decide))
    (hx _ (by decide)) (hx _ (by decide))]
  unfold consume_at
  rw [if_neg (by simp)]
  rw [consume_char_none b r (hx _ (by decide)) (hx _ (by decide)) (hx _ (by decide))
    (hx _ (by decide)) (hx _ (by decide)) (hx _ (by decide))]
  rw [consume_bool_and_null_none b r (hx _ (by decide)) (hx _ (by decide)) (hx _ (by decide))]
  rw [consume_string_noquote b r (hx _ (by decide))]

/-- Draining the tokenizer over a buffer that is one complete number lexeme
yields exactly that lexeme. -/
theorem tokenize_number_literal (b : Nat) (r : List Nat)
    (hb : b = 0x2D ∨ (0x30 ≤ b ∧ b ≤ 0x39)) (tok : Token)
    (hn : consume_number (b :: r) = NumScan.token tok []) :
    Tokenizer.tokenize (b :: r) = some [tok] := by
  have hc : consume (b :: r) = Consume.token tok [] := by
    rw [consume_literal_start b r hb, hn]
  have hz : tokenize_fuel (r.length + 1) [] = TokensResult.toks [] := by
    rw [tokenize_fuel]
    rfl
  have hfuel : tokenize_fuel ((b :: r).length + 1) (b :: r) = TokensResult.toks [tok] := by
    rw [show (b :: r).length + 1 = r.length + 1 + 1 from by simp]
    rw [tokenize_fuel, hc]
    simp only
    rw [hz]
  unfold Tokenizer.tokenize
  rw [hfuel]

/-- An integer literal starts with a minus sign or a digit. -/
theorem int_literal_head (w : List Nat) (hw : int_literal w) :
    ∃ b r, w = b :: r ∧ (b = 0x2D ∨ (0x30 ≤ b ∧ b ≤ 0x39)) := by
  obtain ⟨core, hsh, hc⟩ := hw
  rcases hsh with rfl | rfl
  · rcases hc with rfl | ⟨d, ds, rfl, hd1, hd2, -⟩
    · exact ⟨0x30, [], rfl, Or.inr (by omega)⟩
    · exact ⟨d, ds, rfl, Or.inr (by omega)⟩
  · exact ⟨0x2D, core, rfl, Or.inl rfl⟩

/-- A float literal starts with a minus sign or a digit. -/
theorem float_literal_head (w : List Nat) (hw : float_literal w) :
    ∃ b r, w = b :: r ∧ (b = 0x2D ∨ (0x30 ≤ b ∧ b ≤ 0x39)) := by
  obtain ⟨sgn, core, g, rfl, hsgn, hc, -⟩ := hw
  rcases hsgn with rfl | rfl
  · rcases hc with rfl | ⟨d, ds, rfl, hd1, hd2, -⟩
    · exact ⟨0x30, g, by simp, Or.inr (by omega)⟩
    · exact ⟨d, ds ++ g, by simp, Or.inr (by omega)⟩
  · exact ⟨0x2D, core ++ g, by simp, Or.inl rfl⟩

/--
C4 amended: the number variant is chosen lexically with the float grammar
tried first.  Every in-range integer literal (no fraction, no exponent)
tokenizes as an Integer number carrying its decimal value; every float
literal (with a fraction and/or an exponent) tokenizes as a Float number;
and parse yields Integer 123, Integer -123 and Float numbers on the four
stated inputs.  The amendment restricts the integer half to literals whose
value fits the signed 64-bit range: an out-of-range integer literal does
not tokenize at all -- the unguarded conversion panics (see C9).
-/
theorem C4_number_variant_selection :
    (∀ w : List Nat, int_literal w →
      -(2 ^ 63 : Int) ≤ bytes_to_int w → bytes_to_int w < 2 ^ 63 →
      Tokenizer.tokenize w =
        some [Token.Number (IntOrFloatNumber.Integer (bytes_to_int w))]) ∧
    (∀ w : List Nat, float_literal w →
      Tokenizer.tokenize w = some [Token.Number (IntOrFloatNumber.Float w)]) ∧
    Parser.parse (ascii_bytes "123") =
      some (Except.ok (JSONValue.Number (IntOrFloatNumber.Integer 123))) ∧
    Parser.parse (ascii_bytes "-123") =
      some (Except.ok (JSONValue.Number (IntOrFloatNumber.Integer (-123)))) ∧
    Parser.parse (ascii_bytes "123.456") =
      some (Except.ok (JSONValue.Number (IntOrFloatNumber.Float (ascii_bytes "123.456")))) ∧
    Parser.parse (ascii_bytes "123e10") =
      some (Except.ok (JSONValue.Number (IntOrFloatNumber.Float (ascii_bytes "123e10")))) := by
  refine ⟨?_, ?_, rfl, rfl, rfl, rfl⟩
  · intro w hw h1 h2
    obtain ⟨b, r, rfl, hb⟩ := int_literal_head w hw
    apply tokenize_number_literal b r hb
    unfold consume_number consume_float_number
    rw [float_match_len_none_int _ hw]
    simp only
    unfold consume_int_number
    rw [int_match_len_exact _ hw]
    simp only [List.take_length, List.drop_length]
    rw [if_pos ⟨h1, h2⟩]
  · intro w hw
    obtain ⟨b, r, rfl, hb⟩ := float_literal_head w hw
    apply tokenize_number_literal b r hb
    unfold consume_number consume_float_number
    rw [float_match_len_exact _ hw]
    simp only [List.take_length, List.drop_length]

/--
C4 counterexample: the out-of-range literal 9223372036854775808 matches the
integer grammar (it lacks a fraction and an exponent), yet it does not
tokenize as an Integer number: tokenize panics on the overflowing
conversion and produces no lexeme sequence at all.
-/
theorem C4_counterexample :
    int_literal (ascii_bytes "9223372036854775808") ∧
    ¬∃ v : Int, Tokenizer.tokenize (ascii_bytes "9223372036854775808") =
      some [Token.Number (IntOrFloatNumber.Integer v)] := by
  constructor
  · refine ⟨ascii_bytes "9223372036854775808", Or.inl rfl, Or.inr ?_⟩
    refine ⟨0x39, (ascii_bytes "223372036854775808"), by decide, by decide, by decide, by decide⟩
  · rintro ⟨v, hv⟩
    rw [show Tokenizer.tokenize (ascii_bytes "9223372036854775808") = none from rfl] at hv
    cases hv

/-- C4 witness: the two universal halves applied to the literals 42 and
1.5. -/
theorem C4_number_variant_selection_witness :
    Tokenizer.tokenize (ascii_bytes "42") =
      some [Token.Number (IntOrFloatNumber.Integer (bytes_to_int (ascii_bytes "42")))] ∧
    Tokenizer.tokenize (ascii_bytes "1.5") =
      some [Token.Number (IntOrFloatNumber.Float (ascii_bytes "1.5"))] :=
  ⟨C4_number_variant_selection.1 (ascii_bytes "42")
      ⟨[0x34, 0x32], Or.inl (by decide), Or.inr ⟨0x34, [0x32], by decide, by decide, by decide,
        by decide⟩⟩
      (by decide) (by decide),
   C4_number_variant_selection.2.1 (ascii_bytes "1.5")
      ⟨[], [0x31], [0x2E, 0x35], by decide, Or.inl rfl,
        Or.inr ⟨0x31, [], by decide, by decide, by decide, by decide⟩,
        Or.inl ⟨[0x2E, 0x35], [], by decide, ⟨[0x35], by decide, by decide, by decide⟩,
          Or.inl rfl⟩⟩⟩

/-- A consumed token shortens the remainder. -/
theorem consume_token_shrink (t : Token) (ts r : List Token)
    (h : Parser.consume_token t ts = Except.ok r) : r.length < ts.length := by
  cases ts with
  | nil => simp [Parser.consume_token] at h
  | cons u rest =>
    rw [Parser.consume_token] at h
    split_ifs at h
    simp at h
    subst h
    simp

mutual

/-- A successful parse_value consumes at least one token. -/
theorem parse_value_shrink (f : Nat) (ts : List Token) (v : JSONValue) (r : List Token)
    (h : Parser.parse_value f ts = some (Except.ok (v, r))) : r.length < ts.length := by
  match f with
  | 0 => exact absurd h (by simp [Parser.parse_value])
  | f + 1 =>
    match ts with
    | [] => exact absurd h (by simp [Parser.parse_value])
    | t :: rest =>
      cases t with
      | True => rw [Parser.parse_value] at h; simp at h; obtain ⟨-, rfl⟩ := h; simp
      | False => rw [Parser.parse_value] at h; simp at h; obtain ⟨-, rfl⟩ := h; simp
      | Null => rw [Parser.parse_value] at h; simp at h; obtain ⟨-, rfl⟩ := h; simp
      | Number n => rw [Parser.parse_value] at h; simp at h; obtain ⟨-, -, rfl⟩ := h; simp
      | String s => rw [Parser.parse_value] at h; simp at h; obtain ⟨-, -, rfl⟩ := h; simp
      | BeginArray =>
        rw [Parser.parse_value] at h
        exact parse_array_shrink f _ v r h
      | BeginObject =>
        rw [Parser.parse_value] at h
        exact parse_object_shrink f _ v r h
      | EndArray => simp [Parser.parse_value] at h
      | EndObject => simp [Parser.parse_value] at h
      | NameSeparator => simp [Parser.parse_value] at h
      | ValueSeparator => simp [Parser.parse_value] at h

/-- A successful parse_array consumes at least one token. -/
theorem parse_array_shrink (f : Nat) (ts : List Token) (v : JSONValue) (r : List Token)
    (h : Parser.parse_array f ts = some (Except.ok (v, r))) : r.length < ts.length := by
  match f with
  | 0 => exact absurd h (by simp [Parser.parse_array])
  | f + 1 =>
    rw [Parser.parse_array] at h
    cases hct : Parser.consume_token Token.BeginArray ts with
    | error e => rw [hct] at h; simp at h
    | ok r1 =>
      rw [hct] at h
      have hr1 := consume_token_shrink _ _ _ hct
      simp only at h
      match r1, hr1 with
      | [], hr1 =>
        simp only at h
        cases hce : Parser.consume_token Token.EndArray [] with
        | error e => rw [hce] at h; simp at h
        | ok r4 => simp [Parser.consume_token] at hce
      | next :: r1t, hr1 =>
        simp only at h
        by_cases hna : next = Token.EndArray
        · rw [if_pos hna] at h
          simp only at h
          cases hce : Parser.consume_token Token.EndArray (next :: r1t) with
          | error e => rw [hce] at h; simp at h
          | ok r4 =>
            rw [hce] at h
            have hr4 := consume_token_shrink _ _ _ hce
            simp at h
            obtain ⟨-, rfl⟩ := h
            simp only [List.length_cons] at *
            omega
        · rw [if_neg hna] at h
          cases hpv : Parser.parse_value f (next :: r1t) with
          | none => rw [hpv] at h; simp at h
          | some res =>
            rw [hpv] at h
            match res with
            | Except.error e => simp at h
            | Except.ok (v2, r2) =>
              simp only at h
              have hr2 := parse_value_shrink f _ v2 r2 hpv
              cases hai : Parser.parse_array_items f [v2] r2 with
              | none => rw [hai] at h; simp at h
              | some res2 =>
                rw [hai] at h
                match res2 with
                | Except.error e => simp at h
                | Except.ok (vs, r3) =>
                  simp only at h
                  have hr3 := parse_array_items_shrink f [v2] r2 vs r3 hai
                  cases hce : Parser.consume_token Token.EndArray r3 with
                  | error e => rw [hce] at h; simp at h
                  | ok r4 =>
                    rw [hce] at h
                    have hr4 := consume_token_shrink _ _ _ hce
                    simp at h
                    obtain ⟨-, rfl⟩ := h
                    simp only [List.length_cons] at *
                    omega

/-- A successful parse_object consumes at least one token. -/
theorem parse_object_shrink (f : Nat) (ts : List Token) (v : JSONValue) (r : List Token)
    (h : Parser.parse_object f ts = some (Except.ok (v, r))) : r.length < ts.length := by
  match f with
  | 0 => exact absurd h (by simp [Parser.parse_object])
  | f + 1 =>
    rw [Parser.parse_object] at h
    cases hct : Parser.consume_token Token.BeginObject ts with
    | error e => rw [hct] at h; simp at h
    | ok r1 =>
      rw [hct] at h
      have hr1 := consume_token_shrink _ _ _ hct
      simp only at h
      match r1, hr1 with
      | [], hr1 =>
        simp only at h
        cases hce : Parser.consume_token Token.EndObject [] with
        | error e => rw [hce] at h; simp at h
        | ok r4 => simp [Parser.consume_token] at hce
      | next :: r1t, hr1 =>
        simp only at h
        by_cases hna : next = Token.EndObject
        · rw [if_pos hna] at h
          simp only at h
          cases hce : Parser.consume_token Token.EndObject (next :: r1t) with
          | error e => rw [hce] at h; simp at h
          | ok r4 =>
            rw [hce] at h
            have hr4 := consume_token_shrink _ _ _ hce
            simp at h
            obtain ⟨-, rfl⟩ := h
            simp only [List.length_cons] at *
            omega
        · rw [if_neg hna] at h
          cases hpv : Parser.parse_key_value_pair f (next :: r1t) with
          | none => rw [hpv] at h; simp at h
          | some res =>
            rw [hpv] at h
            match res with
            | Except.error e => simp at h
            | Except.ok ((k, v2), r2) =>
              simp only at h
              have hr2 := parse_kvp_shrink f _ (k, v2) r2 hpv
              cases hai : Parser.parse_object_items f (map_insert k v2 []) r2 with
              | none => rw [hai] at h; simp at h
              | some res2 =>
                rw [hai] at h
                match res2 with
                | Except.error e => simp at h
                | Except.ok (m2, r3) =>
                  simp only at h
                  have hr3 := parse_object_items_shrink f (map_insert k v2 []) r2 m2 r3 hai
                  cases hce : Parser.consume_token Token.EndObject r3 with
                  | error e => rw [hce] at h; simp at h
                  | ok r4 =>
                    rw [hce] at h
                    have hr4 := consume_token_shrink _ _ _ hce
                    simp at h
                    obtain ⟨-, rfl⟩ := h
                    simp only [List.length_cons] at *
                    omega

/-- A successful parse_key_value_pair consumes at least one token. -/
theorem parse_kvp_shrink (f : Nat) (ts : List Token) (kv : List Char × JSONValue)
    (r : List Token)
    (h : Parser.parse_key_value_pair f ts = some (Except.ok (kv, r))) :
    r.length < ts.length := by
  match f with
  | 0 => exact absurd h (by simp [Parser.parse_key_value_pair])
  | f + 1 =>
    match ts with
    | [] => simp [Parser.parse_key_value_pair] at h
    | Token.String key :: r1 =>
      rw [Parser.parse_key_value_pair] at h
      cases hct : Parser.consume_token Token.NameSeparator r1 with
      | error e => rw [hct] at h; simp at h
      | ok r2 =>
        rw [hct] at h
        have hr2 := consume_token_shrink _ _ _ hct
        simp only at h
        cases hpv : Parser.parse_value f r2 with
        | none => rw [hpv] at h; simp at h
        | some res =>
          rw [hpv] at h
          match res with
          | Except.error e => simp at h
          | Except.ok (v2, r3) =>
            simp only at h
            have hr3 := parse_value_shrink f r2 v2 r3 hpv
            simp at h
            obtain ⟨-, -, rfl⟩ := h
            simp only [List.length_cons] at *
            omega
    | Token.True :: r1 => simp [Parser.parse_key_value_pair] at h
    | Token.False :: r1 => simp [Parser.parse_key_value_pair] at h
    | Token.Null :: r1 => simp [Parser.parse_key_value_pair] at h
    | Token.Number n :: r1 => simp [Parser.parse_key_value_pair] at h
    | Token.BeginArray :: r1 => simp [Parser.parse_key_value_pair] at h
    | Token.BeginObject :: r1 => simp [Parser.parse_key_value_pair] at h
    | Token.EndArray :: r1 => simp [Parser.parse_key_value_pair] at h
    | Token.EndObject :: r1 => simp [Parser.parse_key_value_pair] at h
    | Token.NameSeparator :: r1 => simp [Parser.parse_key_value_pair] at h
    | Token.ValueSeparator :: r1 => simp [Parser.parse_key_value_pair] at h

/-- The array separator loop never lengthens the remainder. -/
theorem parse_array_items_shrink (f : Nat) (acc : List JSONValue) (ts : List Token)
    (vs : List JSONValue) (r : List Token)
    (h : Parser.parse_array_items f acc ts = some (Except.ok (vs, r))) :
    r.length ≤ ts.length := by
  match f with
  | 0 => exact absurd h (by simp [Parser.parse_array_items])
  | f + 1 =>
    match ts with
    | [] =>
      simp [Parser.parse_array_items] at h
      obtain ⟨-, rfl⟩ := h
      simp
    | Token.ValueSeparator :: rest =>
      rw [Parser.parse_array_items] at h
      cases hpv : Parser.parse_value f rest with
      | none => rw [hpv] at h; simp at h
      | some res =>
        rw [hpv] at h
        match res with
        | Except.error e => simp at h
        | Except.ok (v2, r2) =>
          simp only at h
          have hr2 := parse_value_shrink f rest v2 r2 hpv
          have hr3 := parse_array_items_shrink f (acc ++ [v2]) r2 vs r h
          simp only [List.length_cons] at *
          omega
    | Token.True :: rest =>
      simp [Parser.parse_array_items] at h
      obtain ⟨-, rfl⟩ := h
      simp
    | Token.False :: rest =>
      simp [Parser.parse_array_items] at h
      obtain ⟨-, rfl⟩ := h
      simp
    | Token.Null :: rest =>
      simp [Parser.parse_array_items] at h
      obtain ⟨-, rfl⟩ := h
      simp
    | Token.Number n :: rest =>
      simp [Parser.parse_array_items] at h
      obtain ⟨-, rfl⟩ := h
      simp
    | Token.String s :: rest =>
      simp [Parser.parse_array_items] at h
      obtain ⟨-, rfl⟩ := h
      simp
    | Token.BeginArray :: rest =>
      simp [Parser.parse_array_items] at h
      obtain ⟨-, rfl⟩ := h
      simp
    | Token.BeginObject :: rest =>
      simp [Parser.parse_array_items] at h
      obtain ⟨-, rfl⟩ := h
      simp
    | Token.EndArray :: rest =>
      simp [Parser.parse_array_items] at h
      obtain ⟨-, rfl⟩ := h
      simp
    | Token.EndObject :: rest =>
      simp [Parser.parse_array_items] at h
      obtain ⟨-, rfl⟩ := h
      simp
    | Token.NameSeparator :: rest =>
      simp [Parser.parse_array_items] at h
      obtain ⟨-, rfl⟩ := h
      simp

/-- The object separator loop never lengthens the remainder. -/
theorem parse_object_items_shrink (f : Nat) (m : List (List Char × JSONValue))
    (ts : List Token) (m2 : List (List Char × JSONValue)) (r : List Token)
    (h : Parser.parse_object_items f m ts = some (Except.ok (m2, r))) :
    r.length ≤ ts.length := by
  match f with
  | 0 => exact absurd h (by simp [Parser.parse_object_items])
  | f + 1 =>
    match ts with
    | [] =>
      simp [Parser.parse_object_items] at h
      obtain ⟨-, rfl⟩ := h
      simp
    | Token.ValueSeparator :: rest =>
      rw [Parser.parse_object_items] at h
      cases hpv : Parser.parse_key_value_pair f rest with
      | none => rw [hpv] at h; simp at h
      | some res =>
        rw [hpv] at h
        match res with
        | Except.error e => simp at h
        | Except.ok ((k, v2), r2) =>
          simp only at h
          have hr2 := parse_kvp_shrink f rest (k, v2) r2 hpv
          have hr3 := parse_object_items_shrink f (map_insert k v2 m) r2 m2 r h
          simp only [List.length_cons] at *
          omega
    | Token.True :: rest =>
      simp [Parser.parse_object_items] at h
      obtain ⟨-, rfl⟩ := h
      simp
    | Token.False :: rest =>
      simp [Parser.parse_object_items] at h
      obtain ⟨-, rfl⟩ := h
      simp
    | Token.Null :: rest =>
      simp [Parser.parse_object_items] at h
      obtain ⟨-, rfl⟩ := h
      simp
    | Token.Number n :: rest =>
      simp [Parser.parse_object_items] at h
      obtain ⟨-, rfl⟩ := h
      simp
    | Token.String s :: rest =>
      simp [Parser.parse_object_items] at h
      obtain ⟨-, rfl⟩ := h
      simp
    | Token.BeginArray :: rest =>
      simp [Parser.parse_object_items] at h
      obtain ⟨-, rfl⟩ := h
      simp
    | Token.BeginObject :: rest =>
      simp [Parser.parse_object_items] at h
      obtain ⟨-, rfl⟩ := h
      simp
    | Token.EndArray :: rest =>
      simp [Parser.parse_object_items] at h
      obtain ⟨-, rfl⟩ := h
      simp
    | Token.EndObject :: rest =>
      simp [Parser.parse_object_items] at h
      obtain ⟨-, rfl⟩ := h
      simp
    | Token.NameSeparator :: rest =>
      simp [Parser.parse_object_items] at h
      obtain ⟨-, rfl⟩ := h
      simp

end

mutual

/-- parse_value cannot exhaust fuel of at least 4 tokens-remaining + 4. -/
theorem parse_value_sufficient (f : Nat) (ts : List Token)
    (h : 4 * ts.length + 4 ≤ f) : Parser.parse_value f ts ≠ none := by
  match f with
  | 0 => exact absurd h (by omega)
  | f + 1 =>
    match ts with
    | [] => simp [Parser.parse_value]
    | t :: rest =>
      cases t with
      | True => simp [Parser.parse_value]
      | False => simp [Parser.parse_value]
      | Null => simp [Parser.parse_value]
      | Number n => simp [Parser.parse_value]
      | String s => simp [Parser.parse_value]
      | BeginArray =>
        rw [Parser.parse_value]
        exact parse_array_sufficient f (Token.BeginArray :: rest)
          (by simp only [List.length_cons] at h ⊢; omega)
      | BeginObject =>
        rw [Parser.parse_value]
        exact parse_object_sufficient f (Token.BeginObject :: rest)
          (by simp only [List.length_cons] at h ⊢; omega)
      | EndArray => simp [Parser.parse_value]
      | EndObject => simp [Parser.parse_value]
      | NameSeparator => simp [Parser.parse_value]
      | ValueSeparator => simp [Parser.parse_value]

/-- parse_array cannot exhaust fuel of at least 4 tokens-remaining + 3. -/
theorem parse_array_sufficient (f : Nat) (ts : List Token)
    (h : 4 * ts.length + 3 ≤ f) : Parser.parse_array f ts ≠ none := by
  match f with
  | 0 => exact absurd h (by omega)
  | f + 1 =>
    rw [Parser.parse_array]
    cases hct : Parser.consume_token Token.BeginArray ts with
    | error e => simp
    | ok r1 =>
      have hr1 := consume_token_shrink _ _ _ hct
      simp only
      match r1, hr1 with
      | [], hr1 => simp [Parser.consume_token]
      | next :: r1t, hr1 =>
        simp only
        by_cases hna : next = Token.EndArray
        · rw [if_pos hna]
          simp only
          cases hce : Parser.consume_token Token.EndArray (next :: r1t) with
          | error e => simp
          | ok r4 => simp
        · rw [if_neg hna]
          have hpvne := parse_value_sufficient f (next :: r1t)
            (by simp only [List.length_cons] at h hr1 ⊢; omega)
          cases hpv : Parser.parse_value f (next :: r1t) with
          | none => exact absurd hpv hpvne
          | some res =>
            match res with
            | Except.error e => simp
            | Except.ok (v2, r2) =>
              simp only
              have hr2 := parse_value_shrink f _ _ _ hpv
              have hine := parse_array_items_sufficient f [v2] r2
                (by simp only [List.length_cons] at h hr1 hr2 ⊢; omega)
              cases hai : Parser.parse_array_items f [v2] r2 with
              | none => exact absurd hai hine
              | some res2 =>
                match res2 with
                | Except.error e => simp
                | Except.ok (vs, r3) =>
                  simp only
                  cases hce : Parser.consume_token Token.EndArray r3 with
                  | error e => simp
                  | ok r4 => simp

/-- parse_object cannot exhaust fuel of at least 4 tokens-remaining + 3. -/
theorem parse_object_sufficient (f : Nat) (ts : List Token)
    (h : 4 * ts.length + 3 ≤ f) : Parser.parse_object f ts ≠ none := by
  match f with
  | 0 => exact absurd h (by omega)
  | f + 1 =>
    rw [Parser.parse_object]
    cases hct : Parser.consume_token Token.BeginObject ts with
    | error e => simp
    | ok r1 =>
      have hr1 := consume_token_shrink _ _ _ hct
      simp only
      match r1, hr1 with
      | [], hr1 => simp [Parser.consume_token]
      | next :: r1t, hr1 =>
        simp only
        by_cases hna : next = Token.EndObject
        · rw [if_pos hna]
          simp only
          cases hce : Parser.consume_token Token.EndObject (next :: r1t) with
          | error e => simp
          | ok r4 => simp
        · rw [if_neg hna]
          have hpvne := parse_kvp_sufficient f (next :: r1t)
            (by simp only [List.length_cons] at h hr1 ⊢; omega)
          cases hpv : Parser.parse_key_value_pair f (next :: r1t) with
          | none => exact absurd hpv hpvne
          | some res =>
            match res with
            | Except.error e => simp
            | Except.ok ((k, v2), r2) =>
              simp only
              have hr2 := parse_kvp_shrink f _ _ _ hpv
              have hine := parse_object_items_sufficient f (map_insert k v2 []) r2
                (by simp only [List.length_cons] at h hr1 hr2 ⊢; omega)
              cases hai : Parser.parse_object_items f (map_insert k v2 []) r2 with
              | none => exact absurd hai hine
              | some res2 =>
                match res2 with
                | Except.error e => simp
                | Except.ok (m2, r3) =>
                  simp only
                  cases hce : Parser.consume_token Token.EndObject r3 with
                  | error e => simp
                  | ok r4 => simp

/-- parse_key_value_pair cannot exhaust fuel of at least 4 tokens-remaining
+ 4. -/
theorem parse_kvp_sufficient (f : Nat) (ts : List Token)
    (h : 4 * ts.length + 4 ≤ f) : Parser.parse_key_value_pair f ts ≠ none := by
  match f with
  | 0 => exact absurd h (by omega)
  | f + 1 =>
    match ts with
    | [] => simp [Parser.parse_key_value_pair]
    | Token.String key :: r1 =>
      rw [Parser.parse_key_value_pair]
      cases hct : Parser.consume_token Token.NameSeparator r1 with
      | error e => simp
      | ok r2 =>
        have hr2 := consume_token_shrink _ _ _ hct
        simp only
        have hpvne := parse_value_sufficient f r2
          (by simp only [List.length_cons] at h ⊢; omega)
        cases hpv : Parser.parse_value f r2 with
        | none => exact absurd hpv hpvne
        | some res =>
          match res with
          | Except.error e => simp
          | Except.ok (v2, r3) => simp
    | Token.True :: r1 => simp [Parser.parse_key_value_pair]
    | Token.False :: r1 => simp [Parser.parse_key_value_pair]
    | Token.Null :: r1 => simp [Parser.parse_key_value_pair]
    | Token.Number n :: r1 => simp [Parser.parse_key_value_pair]
    | Token.BeginArray :: r1 => simp [Parser.parse_key_value_pair]
    | Token.BeginObject :: r1 => simp [Parser.parse_key_value_pair]
    | Token.EndArray :: r1 => simp [Parser.parse_key_value_pair]
    | Token.EndObject :: r1 => simp [Parser.parse_key_value_pair]
    | Token.NameSeparator :: r1 => simp [Parser.parse_key_value_pair]
    | Token.ValueSeparator :: r1 => simp [Parser.parse_key_value_pair]

/-- The array separator loop cannot exhaust fuel of at least 4
tokens-remaining + 1. -/
theorem parse_array_items_sufficient (f : Nat) (acc : List JSONValue) (ts : List Token)
    (h : 4 * ts.length + 1 ≤ f) : Parser.parse_array_items f acc ts ≠ none := by
  match f with
  | 0 => exact absurd h (by omega)
  | f + 1 =>
    match ts with
    | [] => simp [Parser.parse_array_items]
    | Token.ValueSeparator :: rest =>
      rw [Parser.parse_array_items]
      have hpvne := parse_value_sufficient f rest
        (by simp only [List.length_cons] at h ⊢; omega)
      cases hpv : Parser.parse_value f rest with
      | none => exact absurd hpv hpvne
      | some res =>
        match res with
        | Except.error e => simp
        | Except.ok (v2, r2) =>
          simp only
          have hr2 := parse_value_shrink f _ _ _ hpv
          exact parse_array_items_sufficient f (acc ++ [v2]) r2
            (by simp only [List.length_cons] at h hr2 ⊢; omega)
    | Token.True :: rest => simp [Parser.parse_array_items]
    | Token.False :: rest => simp [Parser.parse_array_items]
    | Token.Null :: rest => simp [Parser.parse_array_items]
    | Token.Number n :: rest => simp [Parser.parse_array_items]
    | Token.String s :: rest => simp [Parser.parse_array_items]
    | Token.BeginArray :: rest => simp [Parser.parse_array_items]
    | Token.BeginObject :: rest => simp [Parser.parse_array_items]
    | Token.EndArray :: rest => simp [Parser.parse_array_items]
    | Token.EndObject :: rest => simp [Parser.parse_array_items]
    | Token.NameSeparator :: rest => simp [Parser.parse_array_items]

/-- The object separator loop cannot exhaust fuel of at least 4
tokens-remaining + 1. -/
theorem parse_object_items_sufficient (f : Nat) (m : List (List Char × JSONValue))
    (ts : List Token) (h : 4 * ts.length + 1 ≤ f) :
    Parser.parse_object_items f m ts ≠ none := by
  match f with
  | 0 => exact absurd h (by omega)
  | f + 1 =>
    match ts with
    | [] => simp [Parser.parse_object_items]
    | Token.ValueSeparator :: rest =>
      rw [Parser.parse_object_items]
      have hpvne := parse_kvp_sufficient f rest
        (by simp only [List.length_cons] at h ⊢; omega)
      cases hpv : Parser.parse_key_value_pair f rest with
      | none => exact absurd hpv hpvne
      | some res =>
        match res with
        | Except.error e => simp
        | Except.ok ((k, v2), r2) =>
          simp only
          have hr2 := parse_kvp_shrink f _ _ _ hpv
          exact parse_object_items_sufficient f (map_insert k v2 m) r2
            (by simp only [List.length_cons] at h hr2 ⊢; omega)
    | Token.True :: rest => simp [Parser.parse_object_items]
    | Token.False :: rest => simp [Parser.parse_object_items]
    | Token.Null :: rest => simp [Parser.parse_object_items]
    | Token.Number n :: rest => simp [Parser.parse_object_items]
    | Token.String s :: rest => simp [Parser.parse_object_items]
    | Token.BeginArray :: rest => simp [Parser.parse_object_items]
    | Token.BeginObject :: rest => simp [Parser.parse_object_items]
    | Token.EndArray :: rest => simp [Parser.parse_object_items]
    | Token.EndObject :: rest => simp [Parser.parse_object_items]
    | Token.NameSeparator :: rest => simp [Parser.parse_object_items]

end

/-- The fuel chosen by Parser.parse is always sufficient: the fuel-out
branch of the recursive descent is unreachable, so the fuel-indexed
functions compute the value of the unbounded Rust recursion. -/
theorem parser_fuel_sufficient (ts : List Token) :
    Parser.parse_value (4 * ts.length + 4) ts ≠ none :=
  parse_value_sufficient (4 * ts.length + 4) ts (le_refl _)

mutual

/-- One more unit of fuel preserves a completed parse_value result. -/
theorem parse_value_mono (f : Nat) (ts : List Token)
    (r : Except ParserError (JSONValue × List Token))
    (h : Parser.parse_value f ts = some r) : Parser.parse_value (f + 1) ts = some r := by
  match f with
  | 0 => exact absurd h (by simp [Parser.parse_value])
  | f + 1 =>
    match ts with
    | [] =>
      rw [Parser.parse_value] at h
      rw [Parser.parse_value]
      exact h
    | t :: rest =>
      cases t with
      | True => rw [Parser.parse_value] at h; rw [Parser.parse_value]; exact h
      | False => rw [Parser.parse_value] at h; rw [Parser.parse_value]; exact h
      | Null => rw [Parser.parse_value] at h; rw [Parser.parse_value]; exact h
      | Number n => rw [Parser.parse_value] at h; rw [Parser.parse_value]; exact h
      | String s => rw [Parser.parse_value] at h; rw [Parser.parse_value]; exact h
      | BeginArray =>
        rw [Parser.parse_value] at h
        rw [Parser.parse_value]
        exact parse_array_mono f _ r h
      | BeginObject =>
        rw [Parser.parse_value] at h
        rw [Parser.parse_value]
        exact parse_object_mono f _ r h
      | EndArray => simp only [Parser.parse_value] at h ⊢; exact h
      | EndObject => simp only [Parser.parse_value] at h ⊢; exact h
      | NameSeparator => simp only [Parser.parse_value] at h ⊢; exact h
      | ValueSeparator => simp only [Parser.parse_value] at h ⊢; exact h

/-- One more unit of fuel preserves a completed parse_array result. -/
theorem parse_array_mono (f : Nat) (ts : List Token)
    (r : Except ParserError (JSONValue × List Token))
    (h : Parser.parse_array f ts = some r) : Parser.parse_array (f + 1) ts = some r := by
  match f with
  | 0 => exact absurd h (by simp [Parser.parse_array])
  | f + 1 =>
    rw [Parser.parse_array] at h
    rw [Parser.parse_array]
    cases hct : Parser.consume_token Token.BeginArray ts with
    | error e => rw [hct] at h; exact h
    | ok r1 =>
      rw [hct] at h
      simp only at h ⊢
      match r1 with
      | [] => exact h
      | next :: r1t =>
        simp only at h ⊢
        by_cases hna : next = Token.EndArray
        · rw [if_pos hna] at h ⊢
          exact h
        · rw [if_neg hna] at h ⊢
          cases hpv : Parser.parse_value f (next :: r1t) with
          | none => rw [hpv] at h; simp at h
          | some res =>
            rw [hpv] at h
            rw [parse_value_mono f _ res hpv]
            match res with
            | Except.error e => exact h
            | Except.ok (v2, r2) =>
              simp only at h ⊢
              cases hai : Parser.parse_array_items f [v2] r2 with
              | none => rw [hai] at h; simp at h
              | some res2 =>
                rw [hai] at h
                rw [parse_array_items_mono f [v2] r2 res2 hai]
                match res2 with
                | Except.error e => exact h
                | Except.ok (vs, r3) => exact h

/-- One more unit of fuel preserves a completed parse_object result. -/
theorem parse_object_mono (f : Nat) (ts : List Token)
    (r : Except ParserError (JSONValue × List Token))
    (h : Parser.parse_object f ts = some r) : Parser.parse_object (f + 1) ts = some r := by
  match f with
  | 0 => exact absurd h (by simp [Parser.parse_object])
  | f + 1 =>
    rw [Parser.parse_object] at h
    rw [Parser.parse_object]
    cases hct : Parser.consume_token Token.BeginObject ts with
    | error e => rw [hct] at h; exact h
    | ok r1 =>
      rw [hct] at h
      simp only at h ⊢
      match r1 with
      | [] => exact h
      | next :: r1t =>
        simp only at h ⊢
        by_cases hna : next = Token.EndObject
        · rw [if_pos hna] at h ⊢
          exact h
        · rw [if_neg hna] at h ⊢
          cases hpv : Parser.parse_key_value_pair f (next :: r1t) with
          | none => rw [hpv] at h; simp at h
          | some res =>
            rw [hpv] at h
            rw [parse_kvp_mono f _ res hpv]
            match res with
            | Except.error e => exact h
            | Except.ok ((k, v2), r2) =>
              simp only at h ⊢
              cases hai : Parser.parse_object_items f (map_insert k v2 []) r2 with
              | none => rw [hai] at h; simp at h
              | some res2 =>
                rw [hai] at h
                rw [parse_object_items_mono f (map_insert k v2 []) r2 res2 hai]
                match res2 with
                | Except.error e => exact h
                | Except.ok (m2, r3) => exact h

/-- One more unit of fuel preserves a completed parse_key_value_pair
result. -/
theorem parse_kvp_mono (f : Nat) (ts : List Token)
    (r : Except ParserError ((List Char × JSONValue) × List Token))
    (h : Parser.parse_key_value_pair f ts = some r) :
    Parser.parse_key_value_pair (f + 1) ts = some r := by
  match f with
  | 0 => exact absurd h (by simp [Parser.parse_key_value_pair])
  | f + 1 =>
    match ts with
    | [] => simp only [Parser.parse_key_value_pair] at h ⊢; exact h
    | Token.String key :: r1 =>
      rw [Parser.parse_key_value_pair] at h
      rw [Parser.parse_key_value_pair]
      cases hct : Parser.consume_token Token.NameSeparator r1 with
      | error e => rw [hct] at h; exact h
      | ok r2 =>
        rw [hct] at h
        simp only at h ⊢
        cases hpv : Parser.parse_value f r2 with
        | none => rw [hpv] at h; simp at h
        | some res =>
          rw [hpv] at h
          rw [parse_value_mono f _ res hpv]
          match res with
          | Except.error e => exact h
          | Except.ok (v2, r3) => exact h
    | Token.True :: r1 =>
      simp only [Parser.parse_key_value_pair] at h ⊢; exact h
    | Token.False :: r1 =>
      simp only [Parser.parse_key_value_pair] at h ⊢; exact h
    | Token.Null :: r1 =>
      simp only [Parser.parse_key_value_pair] at h ⊢; exact h
    | Token.Number n :: r1 =>
      simp only [Parser.parse_key_value_pair] at h ⊢; exact h
    | Token.BeginArray :: r1 =>
      simp only [Parser.parse_key_value_pair] at h ⊢; exact h
    | Token.BeginObject :: r1 =>
      simp only [Parser.parse_key_value_pair] at h ⊢; exact h
    | Token.EndArray :: r1 =>
      simp only [Parser.parse_key_value_pair] at h ⊢; exact h
    | Token.EndObject :: r1 =>
      simp only [Parser.parse_key_value_pair] at h ⊢; exact h
    | Token.NameSeparator :: r1 =>
      simp only [Parser.parse_key_value_pair] at h ⊢; exact h
    | Token.ValueSeparator :: r1 =>
      simp only [Parser.parse_key_value_pair] at h ⊢; exact h

/-- One more unit of fuel preserves a completed array-items result. -/
theorem parse_array_items_mono (f : Nat) (acc : List JSONValue) (ts : List Token)
    (r : Except ParserError (List JSONValue × List Token))
    (h : Parser.parse_array_items f acc ts = some r) :
    Parser.parse_array_items (f + 1) acc ts = some r := by
  match f with
  | 0 => exact absurd h (by simp [Parser.parse_array_items])
  | f + 1 =>
    match ts with
    | [] => simp only [Parser.parse_array_items] at h ⊢; exact h
    | Token.ValueSeparator :: rest =>
      rw [Parser.parse_array_items] at h
      rw [Parser.parse_array_items]
      cases hpv : Parser.parse_value f rest with
      | none => rw [hpv] at h; simp at h
      | some res =>
        rw [hpv] at h
        rw [parse_value_mono f _ res hpv]
        match res with
        | Except.error e => exact h
        | Except.ok (v2, r2) =>
          simp only at h ⊢
          exact parse_array_items_mono f (acc ++ [v2]) r2 r h
    | Token.True :: rest =>
      simp only [Parser.parse_array_items] at h ⊢; exact h
    | Token.False :: rest =>
      simp only [Parser.parse_array_items] at h ⊢; exact h
    | Token.Null :: rest =>
      simp only [Parser.parse_array_items] at h ⊢; exact h
    | Token.Number n :: rest =>
      simp only [Parser.parse_array_items] at h ⊢; exact h
    | Token.String s :: rest =>
      simp only [Parser.parse_array_items] at h ⊢; exact h
    | Token.BeginArray :: rest =>
      simp only [Parser.parse_array_items] at h ⊢; exact h
    | Token.BeginObject :: rest =>
      simp only [Parser.parse_array_items] at h ⊢; exact h
    | Token.EndArray :: rest =>
      simp only [Parser.parse_array_items] at h ⊢; exact h
    | Token.EndObject :: rest =>
      simp only [Parser.parse_array_items] at h ⊢; exact h
    | Token.NameSeparator :: rest =>
      simp only [Parser.parse_array_items] at h ⊢; exact h

/-- One more unit of fuel preserves a completed object-items result. -/
theorem parse_object_items_mono (f : Nat) (m : List (List Char × JSONValue))
    (ts : List Token) (r : Except ParserError (List (List Char × JSONValue) × List Token))
    (h : Parser.parse_object_items f m ts = some r) :
    Parser.parse_object_items (f + 1) m ts = some r := by
  match f with
  | 0 => exact absurd h (by simp [Parser.parse_object_items])
  | f + 1 =>
    match ts with
    | [] => simp only [Parser.parse_object_items] at h ⊢; exact h
    | Token.ValueSeparator :: rest =>
      rw [Parser.parse_object_items] at h
      rw [Parser.parse_object_items]
      cases hpv : Parser.parse_key_value_pair f rest with
      | none => rw [hpv] at h; simp at h
      | some res =>
        rw [hpv] at h
        rw [parse_kvp_mono f _ res hpv]
        match res with
        | Except.error e => exact h
        | Except.ok ((k, v2), r2) =>
          simp only at h ⊢
          exact parse_object_items_mono f (map_insert k v2 m) r2 r h
    | Token.True :: rest =>
      simp only [Parser.parse_object_items] at h ⊢; exact h
    | Token.False :: rest =>
      simp only [Parser.parse_object_items] at h ⊢; exact h
    | Token.Null :: rest =>
      simp only [Parser.parse_object_items] at h ⊢; exact h
    | Token.Number n :: rest =>
      simp only [Parser.parse_object_items] at h ⊢; exact h
    | Token.String s :: rest =>
      simp only [Parser.parse_object_items] at h ⊢; exact h
    | Token.BeginArray :: rest =>
      simp only [Parser.parse_object_items] at h ⊢; exact h
    | Token.BeginObject :: rest =>
      simp only [Parser.parse_object_items] at h ⊢; exact h
    | Token.EndArray :: rest =>
      simp only [Parser.parse_object_items] at h ⊢; exact h
    | Token.EndObject :: rest =>
      simp only [Parser.parse_object_items] at h ⊢; exact h
    | Token.NameSeparator :: rest =>
      simp only [Parser.parse_object_items] at h ⊢; exact h

end

/-- Any amount of extra fuel preserves a completed parse_value result. -/
theorem parse_value_mono_le (f1 f2 : Nat) (ts : List Token)
    (r : Except ParserError (JSONValue × List Token)) (hle : f1 ≤ f2)
    (h : Parser.parse_value f1 ts = some r) : Parser.parse_value f2 ts = some r := by
  induction f2 with
  | zero =>
    have : f1 = 0 := by omega
    subst this
    exact h
  | succ f2 ih =>
    by_cases hf : f1 = f2 + 1
    · subst hf
      exact h
    · exact parse_value_mono f2 ts r (ih (by omega))

/-- Above the fuel chosen by Parser.parse, the parse result does not depend
on the fuel: together with parser_fuel_sufficient, the fuel-indexed descent
computes the value of the unbounded Rust recursion. -/
theorem parse_value_fuel_stable (f1 f2 : Nat) (ts : List Token)
    (h1 : 4 * ts.length + 4 ≤ f1) (h2 : 4 * ts.length + 4 ≤ f2) :
    Parser.parse_value f1 ts = Parser.parse_value f2 ts := by
  cases hr : Parser.parse_value (4 * ts.length + 4) ts with
  | none => exact absurd hr (parser_fuel_sufficient ts)
  | some r =>
    rw [parse_value_mono_le _ _ ts r h1 hr, parse_value_mono_le _ _ ts r h2 hr]
